import Mathlib

/-!
Verification development for the pw-checker breach-check batch engine and
risk-scoring pipeline.

The definitions below are a shallow embedding of the TypeScript source:

* src/importCsv.ts (rate-limited variant): checkBreachInfo (Lookup Client,
  retry with exponential backoff), checkAllAccountsForBreaches (Identity
  Deduplicator via the SQL GROUP BY query, Rate-Limited Batch Scheduler,
  Incremental Update Applier working over the pw_entries rows).
* src/clearDb.ts (riskScoring variant): calculatePasswordStrength,
  isCriticalAccount, isPasswordOld, calculateRiskScore.

Modelling conventions:
* The SQLite table pw_entries is a list of Row values; SQL UPDATE ... WHERE
  is a List.map that rewrites matching rows.
* JavaScript strings are Lean String values; character level operations work
  on List Char because those reduce inside the kernel.
* The persisted breach_info blob is the exact string JSON.stringify would
  produce; JSON.parse is modelled by jsonParse, a recursive descent parser
  for the JSON fragment this program emits (integer numbers, the standard
  escapes).  The JavaScript Date of an ISO day string is modelled by
  dateVal, an order embedding of the Date ordering on strings of the shape
  YYYY-MM-DD; breach dates and the 1970-01-01 fallback have that shape.
* Timestamps produced by new Date() are threaded as an explicit now : String
  argument, and the cutoff used by isPasswordOld as an explicit cutoff value.
-/

namespace PwChecker

set_option maxRecDepth 100000

/-! ### Character and string helpers -/

/-- ASCII lower casing of one character, as done both by SQLite LOWER and by
the ASCII fragment of JavaScript toLowerCase. -/
def asciiLowerChar (c : Char) : Char :=
  if 65 ≤ c.toNat && c.toNat ≤ 90 then Char.ofNat (c.toNat + 32) else c

/-- ASCII lower casing of a string. -/
def asciiLower (s : String) : String :=
  (s.toList.map asciiLowerChar).asString

/-- Decides whether the first list is a leading segment of the second. -/
def leadEq : List Char → List Char → Bool
  | [], _ => true
  | _ :: _, [] => false
  | a :: as, b :: bs => a == b && leadEq as bs

/-- Decides whether needle occurs as a contiguous segment of hay; this is
JavaScript String.prototype.includes on the character level. -/
def containsSub (needle : List Char) : List Char → Bool
  | [] => leadEq needle []
  | c :: t => leadEq needle (c :: t) || containsSub needle t

/-- String form of containsSub. -/
def strIncludes (hay needle : String) : Bool :=
  containsSub needle.toList hay.toList

/-- Decides whether a string contains a given character, as the SQL pattern
LIKE percent-c-percent does. -/
def strHasChar (s : String) (c : Char) : Bool :=
  s.toList.any (fun d => d == c)

/-- Lexicographic comparison of character lists by code point; this is the
order SQLite ORDER BY induces on the stored text values. -/
def lexLe : List Char → List Char → Bool
  | [], _ => true
  | _ :: _, [] => false
  | a :: as, b :: bs =>
    if a.toNat < b.toNat then true
    else if b.toNat < a.toNat then false
    else lexLe as bs

/-- String level lexicographic comparison. -/
def strLe (a b : String) : Bool :=
  lexLe a.toList b.toList

/-- JavaScript Math.round of num / den for nonnegative integers: round half
up, so floor of num / den + one half. -/
def jsRoundHalfUp (num den : Nat) : Nat :=
  (2 * num + den) / (2 * den)

/-! ### JSON values

The breach_info column stores the output of JSON.stringify; readers apply
JSON.parse to it.  Json models the parsed value tree. -/

inductive Json where
  | null : Json
  | bool (b : Bool) : Json
  | num (n : Int) : Json
  | str (s : String) : Json
  | arr (items : List Json) : Json
  | obj (fields : List (String × Json)) : Json

/-- Property lookup on a parsed object: first binding of the key, none for a
missing key or a non object, mirroring JavaScript property access returning
undefined. -/
def Json.getField : Json → String → Option Json
  | .obj fields, key => fields.lookup key
  | _, _ => none

/-- JavaScript truthiness of a possibly absent value: undefined, null, false,
zero and the empty string are falsy, every other value is truthy. -/
def jsTruthy : Option Json → Bool
  | none => false
  | some .null => false
  | some (.bool b) => b
  | some (.num n) => n != 0
  | some (.str s) => s != ""
  | some (.arr _) => true
  | some (.obj _) => true

/-! ### A JSON parser (model of JSON.parse)

Recursive descent over the character list with an explicit fuel argument so
that every definition is structural and reduces inside the kernel.  It covers
the fragment this program writes: objects, arrays, strings with the standard
single character escapes, integer numbers, true, false, null.  Inputs outside
this fragment are rejected, which the scoring code treats like any other
parse failure. -/

def isWsChar (c : Char) : Bool :=
  c == ' ' || c == '\t' || c == '\n' || c == '\r'

def skipWs : List Char → List Char
  | [] => []
  | c :: t => if isWsChar c then skipWs t else c :: t

def isDigitChar (c : Char) : Bool :=
  48 ≤ c.toNat && c.toNat ≤ 57

/-- Reads a maximal run of digits, returning the value, the digit count and
the rest of the input. -/
def digitsAux : List Char → Nat → Nat → Nat × Nat × List Char
  | [], acc, n => (acc, n, [])
  | c :: t, acc, n =>
    if isDigitChar c then digitsAux t (acc * 10 + (c.toNat - 48)) (n + 1)
    else (acc, n, c :: t)

/-- Reads the body of a string literal after the opening quote, handling the
single character escapes JSON.stringify emits. -/
def parseStrBody : List Char → String → Option (String × List Char)
  | [], _ => none
  | '"' :: rest, acc => some (acc, rest)
  | '\\' :: e :: rest, acc =>
    if e == '"' then parseStrBody rest (acc.push '"')
    else if e == '\\' then parseStrBody rest (acc.push '\\')
    else if e == '/' then parseStrBody rest (acc.push '/')
    else if e == 'n' then parseStrBody rest (acc.push '\n')
    else if e == 't' then parseStrBody rest (acc.push '\t')
    else if e == 'r' then parseStrBody rest (acc.push '\r')
    else none
  | '\\' :: [], _ => none
  | c :: rest, acc =>
    if c == '"' || c == '\\' then none else parseStrBody rest (acc.push c)

/-- Reads an integer JSON number starting at the current position. -/
def parseNum : List Char → Option (Int × List Char)
  | '-' :: t =>
    match digitsAux t 0 0 with
    | (v, n, rest) => if n == 0 then none else some (-(v : Int), rest)
  | cs =>
    match digitsAux cs 0 0 with
    | (v, n, rest) => if n == 0 then none else some ((v : Int), rest)

mutual

def jsonValAux : Nat → List Char → Option (Json × List Char)
  | 0, _ => none
  | fuel + 1, cs =>
    match skipWs cs with
    | [] => none
    | c :: r =>
      if c == '"' then
        match parseStrBody r "" with
        | some (s, rest) => some (.str s, rest)
        | none => none
      else if c.toNat == 123 then
        match skipWs r with
        | [] => none
        | c2 :: r2 =>
          if c2.toNat == 125 then some (.obj [], r2)
          else
            match jsonFieldsAux fuel (c2 :: r2) with
            | some (fs, rest) => some (.obj fs, rest)
            | none => none
      else if c == '[' then
        match skipWs r with
        | [] => none
        | c2 :: r2 =>
          if c2 == ']' then some (.arr [], r2)
          else
            match jsonItemsAux fuel (c2 :: r2) with
            | some (items, rest) => some (.arr items, rest)
            | none => none
      else if c == 'n' then
        match r with
        | 'u' :: 'l' :: 'l' :: rest => some (.null, rest)
        | _ => none
      else if c == 't' then
        match r with
        | 'r' :: 'u' :: 'e' :: rest => some (.bool true, rest)
        | _ => none
      else if c == 'f' then
        match r with
        | 'a' :: 'l' :: 's' :: 'e' :: rest => some (.bool false, rest)
        | _ => none
      else if c == '-' || isDigitChar c then
        match parseNum (c :: r) with
        | some (n, rest) => some (.num n, rest)
        | none => none
      else none

def jsonItemsAux : Nat → List Char → Option (List Json × List Char)
  | 0, _ => none
  | fuel + 1, cs =>
    match jsonValAux fuel cs with
    | none => none
    | some (v, r) =>
      match skipWs r with
      | ',' :: r2 =>
        match jsonItemsAux fuel r2 with
        | some (items, rest) => some (v :: items, rest)
        | none => none
      | ']' :: r2 => some ([v], r2)
      | _ => none

def jsonFieldsAux : Nat → List Char → Option (List (String × Json) × List Char)
  | 0, _ => none
  | fuel + 1, cs =>
    match skipWs cs with
    | '"' :: r =>
      match parseStrBody r "" with
      | none => none
      | some (key, r2) =>
        match skipWs r2 with
        | ':' :: r3 =>
          match jsonValAux fuel r3 with
          | none => none
          | some (v, r4) =>
            match skipWs r4 with
            | ',' :: r5 =>
              match jsonFieldsAux fuel r5 with
              | some (fs, rest) => some ((key, v) :: fs, rest)
              | none => none
            | c :: r5 =>
              if c.toNat == 125 then some ([(key, v)], r5) else none
            | [] => none
        | _ => none
    | _ => none

end

/-- Model of JSON.parse: parse one value and require the rest of the input to
be whitespace.  Returns none where JSON.parse would throw. -/
def jsonParse (s : String) : Option Json :=
  match jsonValAux (s.toList.length + 1) s.toList with
  | some (v, rest) => if skipWs rest == [] then some v else none
  | none => none

/-! ### A stable sort

JavaScript Array.prototype.sort is required by the language specification to
be stable, and a comparator returning NaN is treated as comparing equal.  Any
stable sort therefore computes the same output list; we embed it as a stable
insertion sort, which reduces inside the kernel. -/

/-- Inserts x into l, placing it before the first element y for which the
comparator does not put y at or before x; equal elements keep their original
relative order, so the resulting sort is stable. -/
def insertLeB (le : α → α → Bool) (x : α) : List α → List α
  | [] => [x]
  | y :: ys => if le x y then x :: y :: ys else y :: insertLeB le x ys

/-- Stable insertion sort by a boolean comparator. -/
def sortByB (le : α → α → Bool) : List α → List α
  | [] => []
  | x :: xs => insertLeB le x (sortByB le xs)

/-! ### Password weakness heuristic (clearDb.ts, calculatePasswordStrength) -/

/-- The fixed common password substring list of calculatePasswordStrength. -/
def commonPatterns : List String :=
  ["password", "123456", "qwerty", "abc123", "admin", "letmein",
   "welcome", "monkey", "111111", "dragon", "master", "princess"]

/-- Decides whether the character list contains three or more identical
consecutive characters, the regex of one captured character followed by two
or more back references. -/
def hasTripleRepeat : List Char → Bool
  | a :: b :: c :: rest =>
    (a == b && b == c) || hasTripleRepeat (b :: c :: rest)
  | _ => false

/-- Embedding of calculatePasswordStrength from clearDb.ts: a weakness score
in 0..100, higher meaning weaker.  The character class tests are the ASCII
regex classes of the source; the sequential regex alternatives 123, abc, qwe,
asd, zxc are tested case insensitively via the lower cased password. -/
def calculatePasswordStrength (password : String) : Nat :=
  if password == "" then 100
  else
    let cs := password.toList
    let lengthPenalty :=
      if cs.length < 8 then 30 else if cs.length < 12 then 15 else 0
    let hasLower := cs.any (fun c => 97 ≤ c.toNat && c.toNat ≤ 122)
    let hasUpper := cs.any (fun c => 65 ≤ c.toNat && c.toNat ≤ 90)
    let hasDigits := cs.any (fun c => 48 ≤ c.toNat && c.toNat ≤ 57)
    let hasSpecial := cs.any (fun c =>
      !(97 ≤ c.toNat && c.toNat ≤ 122) && !(65 ≤ c.toNat && c.toNat ≤ 90) &&
      !(48 ≤ c.toNat && c.toNat ≤ 57))
    let charTypes := [hasLower, hasUpper, hasDigits, hasSpecial].count true
    let varietyPenalty :=
      if charTypes < 2 then 25 else if charTypes < 3 then 15
      else if charTypes < 4 then 5 else 0
    let lowerPassword := asciiLower password
    let commonPenalty :=
      if commonPatterns.any (fun p => strIncludes lowerPassword p) then 40 else 0
    let seqPenalty :=
      if ["123", "abc", "qwe", "asd", "zxc"].any
          (fun p => strIncludes lowerPassword p) then 20 else 0
    let repeatPenalty := if hasTripleRepeat cs then 15 else 0
    min 100 (lengthPenalty + varietyPenalty + commonPenalty + seqPenalty +
      repeatPenalty)

/-! ### Dates

The sort comparator of checkAllAccountsForBreaches and isPasswordOld compare
JavaScript Date values built from ISO day strings.  dateVal is an order
embedding of that ordering for strings of the shape YYYY-MM-DD (the shape of
HIBP BreachDate values and of the 1970-01-01 fallback), returning none where
the Date constructor would yield an invalid date (NaN). -/

/-- Day count of a month, with leap year handling as in the Gregorian
calendar used by JavaScript Date parsing. -/
def daysInMonth (y m : Nat) : Nat :=
  if m == 2 then
    (if y % 4 == 0 && (y % 100 != 0 || y % 400 == 0) then 29 else 28)
  else if m == 4 || m == 6 || m == 9 || m == 11 then 30 else 31

/-- Numeric value of a digit character. -/
def digitNat (c : Char) : Nat := c.toNat - 48

/-- Order embedding of new Date(s).getTime() for ISO day strings; none models
NaN.  The code value (y times 13 plus m) times 32 plus d is strictly monotone
in the calendar order, which is all the comparisons in the source observe. -/
def dateVal (s : String) : Option Nat :=
  match s.toList with
  | [y1, y2, y3, y4, '-', m1, m2, '-', d1, d2] =>
    if [y1, y2, y3, y4, m1, m2, d1, d2].all isDigitChar then
      let y := ((digitNat y1 * 10 + digitNat y2) * 10 + digitNat y3) * 10 +
        digitNat y4
      let m := digitNat m1 * 10 + digitNat m2
      let d := digitNat d1 * 10 + digitNat d2
      if 1 ≤ m && m ≤ 12 && 1 ≤ d && d ≤ daysInMonth y m then
        some ((y * 13 + m) * 32 + d)
      else none
    else none
  | _ => none

/-! ### The data model -/

/-- One breach object of the HIBP API response, the BreachInfo interface of
importCsv.ts. -/
structure BreachInfo where
  Name : String
  Title : String
  Domain : String
  BreachDate : String
  AddedDate : String
  DataClasses : List String
  Description : String
deriving DecidableEq

/-- One row of the pw_entries table, the PasswordEntry interface of
clearDb.ts.  A none in breach_info or last_checked_at is SQL NULL; an absent
string field of the API JSON is the empty string, which is falsy. -/
structure Row where
  id : Nat
  name : String
  url : String
  username : String
  password : String
  compromised : Option Bool
  source : String
  last_checked_at : Option String
  notes : Option String
  breach_info : Option String
deriving DecidableEq

/-- Run counters of checkAllAccountsForBreaches: breachedCount, safeCount,
errorCount. -/
structure Tally where
  breached : Nat
  safe : Nat
  errors : Nat
deriving DecidableEq

/-! ### The Incremental Update Applier (importCsv.ts lines 505 to 570)

The writes are the two JSON.stringify object literals; the blob builders
below spell out the exact serialized text. -/

/-- JavaScript string disjunction: the left operand unless it is empty. -/
def jsOrStr (s dflt : String) : String := if s == "" then dflt else s

/-- Persisted shape of one breach inside the breaches array: the object
literal with keys name, title, domain, date, dataTypes.  The Array.isArray
guard of the source is the identity here because DataClasses is typed as a
list. -/
structure PersistedBreach where
  name : String
  title : String
  domain : String
  date : String
  dataTypes : List String
deriving DecidableEq

/-- Conversion the Found write applies to each breach object. -/
def toPersisted (b : BreachInfo) : PersistedBreach :=
  { name := jsOrStr b.Name "Unknown"
    title := jsOrStr b.Title "Unknown"
    domain := jsOrStr b.Domain "Unknown"
    date := jsOrStr b.BreachDate "Unknown"
    dataTypes := b.DataClasses }

/-- Sort key of the comparator in the Found branch: the Date built from
BreachDate, with the empty string replaced by 1970-01-01 first. -/
def breachSortKey (b : BreachInfo) : Option Nat :=
  dateVal (jsOrStr b.BreachDate "1970-01-01")

/-- The comparator dateB minus dateA, as a boolean ordering: a may stay
before b when the comparator is not positive; a NaN comparator value is
treated as zero by the language specification, hence true. -/
def breachDescLe (a b : BreachInfo) : Bool :=
  match breachSortKey a, breachSortKey b with
  | some ka, some kb => kb ≤ ka
  | _, _ => true

/-- The sorted copy the Found branch builds before persisting. -/
def sortBreachesDesc (bs : List BreachInfo) : List BreachInfo :=
  sortByB breachDescLe bs

/-- JSON.stringify escaping of one character; other control characters never
occur in the data this program writes. -/
def escJsonChar (c : Char) : String :=
  if c == '"' then "\\\""
  else if c == '\\' then "\\\\"
  else if c == '\n' then "\\n"
  else if c == '\t' then "\\t"
  else if c == '\r' then "\\r"
  else String.singleton c

/-- JSON.stringify of a string value. -/
def quoteJson (s : String) : String :=
  "\"" ++ String.join (s.toList.map escJsonChar) ++ "\""

/-- JSON.stringify of an array of strings. -/
def strListJson (l : List String) : String :=
  "[" ++ String.intercalate "," (l.map quoteJson) ++ "]"

/-- Serialized text of one entry of the breaches array. -/
def persistedBreachText (p : PersistedBreach) : String :=
  "\x7b\"name\":" ++ quoteJson p.name ++ ",\"title\":" ++ quoteJson p.title ++
  ",\"domain\":" ++ quoteJson p.domain ++ ",\"date\":" ++ quoteJson p.date ++
  ",\"dataTypes\":" ++ strListJson p.dataTypes ++ "\x7d"

/-- The JSON.stringify text of the NotFound write: checked true, breached
false, checkedAt now. -/
def safeBlob (now : String) : String :=
  "\x7b\"checked\":true,\"breached\":false,\"checkedAt\":" ++ quoteJson now ++
  "\x7d"

/-- The JSON.stringify text of the Found write: checked true, breached true,
count, checkedAt, and the breaches array sorted by date descending. -/
def breachedBlob (now : String) (bs : List BreachInfo) : String :=
  let sorted := sortBreachesDesc bs
  "\x7b\"checked\":true,\"breached\":true,\"count\":" ++
  toString sorted.length ++ ",\"checkedAt\":" ++ quoteJson now ++
  ",\"breaches\":[" ++
  String.intercalate "," (sorted.map (fun b => persistedBreachText
    (toPersisted b))) ++ "]\x7d"

/-- Row predicate of the SQL UPDATE: LOWER(username) = LOWER(account). -/
def matchesUser (u : String) (r : Row) : Bool :=
  asciiLower r.username == asciiLower u

/-- The UPDATE pw_entries SET breach_info = blob WHERE LOWER(username) =
LOWER(u) statement. -/
def updateMatching (db : List Row) (u : String) (blob : String) : List Row :=
  db.map (fun r => if matchesUser u r then { r with breach_info := some blob }
    else r)

/-- One iteration of the account loop of checkAllAccountsForBreaches: the
lookup outcome (none models a null return of checkBreachInfo, that is an
error or exhausted rate limit retries) decides which write happens, and the
matching counter is bumped.  The returned Tally is the delta of this
iteration. -/
def processAccount (now : String) (db : List Row) (u : String) :
    Option (List BreachInfo) → List Row × Tally
  | none => (db, ⟨0, 0, 1⟩)
  | some [] => (updateMatching db u (safeBlob now), ⟨0, 1, 0⟩)
  | some (b :: bs) =>
    (updateMatching db u (breachedBlob now (b :: bs)), ⟨1, 0, 0⟩)

/-- Database state after the scheduler has processed the given account list,
with the lookup outcomes given by f. -/
def runCheckDb (now : String) (db : List Row) (accounts : List String)
    (f : String → Option (List BreachInfo)) : List Row :=
  accounts.foldl (fun d a => (processAccount now d a (f a)).1) db

/-! ### The Identity Deduplicator and resume filter (the SELECT of
checkAllAccountsForBreaches, importCsv.ts lines 428 to 438) -/

/-- The breach_info IS NOT NULL AND breach_info != '' test of the resume
subquery. -/
def hasBlob (r : Row) : Bool :=
  match r.breach_info with
  | none => false
  | some s => s != ""

/-- The EXISTS subquery: some row of the table shares the lower cased
username and already has a nonempty breach_info. -/
def identityHasState (db : List Row) (r : Row) : Bool :=
  db.any (fun p2 => asciiLower p2.username == asciiLower r.username &&
    hasBlob p2)

/-- The WHERE clause: username LIKE percent-at-percent, and in resume mode
additionally NOT EXISTS of the subquery above. -/
def eligibleRows (db : List Row) (resume : Bool) : List Row :=
  db.filter (fun r => strHasChar r.username '@' &&
    (!resume || !identityHasState db r))

/-- The SELECT LOWER(username) ... GROUP BY LOWER(username) ORDER BY username
output, as the sorted duplicate free list of lower cased usernames. -/
def groupNames (db : List Row) (resume : Bool) : List String :=
  sortByB strLe (((eligibleRows db resume).map
    (fun r => asciiLower r.username)).dedup)

/-- The full group rows including the COUNT(*) AS entry_count column. -/
def groupsOf (db : List Row) (resume : Bool) : List (String × Nat) :=
  (groupNames db resume).map (fun u =>
    (u, (eligibleRows db resume).countP (fun r => asciiLower r.username == u)))

/-! ### The written breach state as a typed value

The two JSON.stringify literals of the Update Applier persist exactly one of
two shapes; WrittenState is that shape as a tagged value, writtenBlobText its
serialized text, and stateJson its parsed value tree. -/

inductive WrittenState where
  | safe (checkedAt : String)
  | breached (checkedAt : String) (entries : List PersistedBreach)
deriving DecidableEq

def stateBreached : WrittenState → Bool
  | .safe _ => false
  | .breached _ _ => true

def stateCheckedAt : WrittenState → String
  | .safe t => t
  | .breached t _ => t

def stateBreaches : WrittenState → List PersistedBreach
  | .safe _ => []
  | .breached _ entries => entries

def stateCount (st : WrittenState) : Nat :=
  (stateBreaches st).length

/-- Serialized text of a written state; the two match arms are the two
JSON.stringify object literals of checkAllAccountsForBreaches. -/
def writtenBlobText : WrittenState → String
  | .safe now =>
    "\x7b\"checked\":true,\"breached\":false,\"checkedAt\":" ++
    quoteJson now ++ "\x7d"
  | .breached now entries =>
    "\x7b\"checked\":true,\"breached\":true,\"count\":" ++
    toString entries.length ++ ",\"checkedAt\":" ++ quoteJson now ++
    ",\"breaches\":[" ++
    String.intercalate "," (entries.map persistedBreachText) ++ "]\x7d"

/-- The state the applier persists for a given lookup result list. -/
def writtenStateD (now : String) (bs : List BreachInfo) : WrittenState :=
  match bs with
  | [] => .safe now
  | _ :: _ => .breached now ((sortBreachesDesc bs).map toPersisted)

/-- Parsed value tree of one persisted breach entry. -/
def persistedBreachJson (p : PersistedBreach) : Json :=
  .obj [("name", .str p.name), ("title", .str p.title),
    ("domain", .str p.domain), ("date", .str p.date),
    ("dataTypes", .arr (p.dataTypes.map Json.str))]

/-- Parsed value tree of a written state. -/
def stateJson : WrittenState → Json
  | .safe now =>
    .obj [("checked", .bool true), ("breached", .bool false),
      ("checkedAt", .str now)]
  | .breached now entries =>
    .obj [("checked", .bool true), ("breached", .bool true),
      ("count", .num entries.length), ("checkedAt", .str now),
      ("breaches", .arr (entries.map persistedBreachJson))]

/-- Key list of a parsed object. -/
def Json.keys : Json → List String
  | .obj fields => fields.map Prod.fst
  | _ => []

/-- Reads back a list of strings from a JSON array body. -/
def strListOfJson : List Json → Option (List String)
  | [] => some []
  | .str s :: t =>
    match strListOfJson t with
    | some l => some (s :: l)
    | none => none
  | _ => none

/-- Reads back one breach entry from its parsed tree. -/
def persistedBreachOfJson (j : Json) : Option PersistedBreach :=
  match j.getField "name", j.getField "title", j.getField "domain",
      j.getField "date", j.getField "dataTypes" with
  | some (.str n), some (.str t), some (.str d), some (.str dt),
      some (.arr ts) =>
    match strListOfJson ts with
    | some dataTypes => some ⟨n, t, d, dt, dataTypes⟩
    | none => none
  | _, _, _, _, _ => none

/-- Reads back the breaches array. -/
def breachListOfJson : List Json → Option (List PersistedBreach)
  | [] => some []
  | j :: t =>
    match persistedBreachOfJson j, breachListOfJson t with
    | some p, some l => some (p :: l)
    | _, _ => none

/-- Reads a written state back from its parsed tree; the inverse of stateJson
on serialized states. -/
def stateOfJson (j : Json) : Option WrittenState :=
  match j.getField "checked", j.getField "breached" with
  | some (.bool true), some (.bool false) =>
    (match j.getField "checkedAt" with
     | some (.str t) => some (.safe t)
     | _ => none)
  | some (.bool true), some (.bool true) =>
    (match j.getField "checkedAt", j.getField "count",
        j.getField "breaches" with
     | some (.str t), some (.num n), some (.arr items) =>
       (match breachListOfJson items with
        | some entries =>
          if n == (entries.length : Int) then some (.breached t entries)
          else none
        | none => none)
     | _, _, _ => none)
  | _, _ => none

/-! ### Row level view of the applier, used to reason about runCheckDb -/

/-- Effect of one processAccount call on one row. -/
def rowApply (now a : String) (res : Option (List BreachInfo)) (r : Row) :
    Row :=
  match res with
  | none => r
  | some [] =>
    if matchesUser a r then { r with breach_info := some (safeBlob now) }
    else r
  | some (b :: bs) =>
    if matchesUser a r then
      { r with breach_info := some (breachedBlob now (b :: bs)) }
    else r

/-- Effect of a whole scheduler pass on one row. -/
def rowRun (now : String) (f : String → Option (List BreachInfo))
    (as : List String) (r : Row) : Row :=
  as.foldl (fun r a => rowApply now a (f a) r) r

/-- The identity u received a terminal lookup result in the pass over as. -/
def coveredB (as : List String) (f : String → Option (List BreachInfo))
    (u : String) : Bool :=
  as.any (fun a => (f a).isSome && a == u)

/-! ### The Lookup Client (importCsv.ts, checkBreachInfo)

The HTTP exchange is abstracted as a function from the attempt number to the
response classification; the retry recursion is bounded by maxRetries, made
structural through a fuel argument that the top level entry point supplies as
maxRetries + 1, one more than the deepest possible recursion. -/

inductive HibpResponse where
  | ok (breaches : List BreachInfo)
  | notFound
  | rateLimited
  | httpError (status : Nat)
  | netError
deriving DecidableEq

def maxRetries : Nat := 3

/-- The body of checkBreachInfo: 404 yields the empty list, 429 retries with
a doubling wait while retryCount < maxRetries and otherwise gives up with
null, any other non ok status or thrown error yields null, 200 yields the
parsed body.  The second component collects the backoff waits performed, in
order. -/
def checkBreachRetries (resp : Nat → HibpResponse) :
    Nat → Nat → Option (List BreachInfo) × List Nat
  | 0, _ => (none, [])
  | fuel + 1, retryCount =>
    match resp retryCount with
    | .notFound => (some [], [])
    | .rateLimited =>
      if retryCount < maxRetries then
        let waitTime := 2 ^ retryCount * 2000
        let r := checkBreachRetries resp fuel (retryCount + 1)
        (r.1, waitTime :: r.2)
      else (none, [])
    | .ok bs => (some bs, [])
    | .httpError _ => (none, [])
    | .netError => (none, [])

/-- Entry point of the Lookup Client: a missing API key is a configuration
failure answered with null before any request. -/
def checkBreachInfo (apiKey : String) (resp : Nat → HibpResponse) :
    Option (List BreachInfo) × List Nat :=
  if apiKey == "" then (none, [])
  else checkBreachRetries resp (maxRetries + 1) 0

/-- Result classification of the first response that is not retried: only
200 and 404 produce a non null result. -/
def classifyFinal : HibpResponse → Option (List BreachInfo)
  | .ok bs => some bs
  | .notFound => some []
  | .rateLimited => none
  | .httpError _ => none
  | .netError => none

/-! ### The Rate-Limited Batch Scheduler (importCsv.ts lines 446 to 622) -/

structure RateLimitConfig where
  requestsPerMinute : Nat
  batchSize : Nat
  delayBetweenRequests : Nat
  delayBetweenBatches : Nat

/-- The RATE_LIMIT constant of importCsv.ts. -/
def RATE_LIMIT : RateLimitConfig :=
  { requestsPerMinute := 10, batchSize := 8, delayBetweenRequests := 7000,
    delayBetweenBatches := 70000 }

/-- Observable events of one scheduler run: an external lookup, the sleep
between requests inside a batch, the sleep between batches (the source
performs the latter as a countdown of one second steps totalling the full
delay). -/
inductive SchedEvent where
  | lookup (u : String)
  | waitRequest (ms : Nat)
  | waitBatch (ms : Nat)
deriving DecidableEq

/-- Math.ceil(n / bs) for positive bs. -/
def totalBatchesOf (n bs : Nat) : Nat := (n + bs - 1) / bs

/-- The batch list the outer loop walks: slice(batchIndex * batchSize,
min(batchIndex * batchSize + batchSize, length)) for each batchIndex below
totalBatches; slice start end is take (end - start) after drop start, and the
min is absorbed by take truncating at the end of the list. -/
def batchSlices (accounts : List String) (bs : Nat) : List (List String) :=
  (List.range (totalBatchesOf accounts.length bs)).map
    (fun batchIndex => (accounts.drop (batchIndex * bs)).take bs)

/-- Events of the inner loop over one batch: a lookup per account, and the
delayBetweenRequests sleep after every account except the last of the
batch. -/
def batchTrace (cfg : RateLimitConfig) (batch : List String) :
    List SchedEvent :=
  batch.enum.flatMap (fun p =>
    SchedEvent.lookup p.2 ::
    (if p.1 < batch.length - 1 then
      [SchedEvent.waitRequest cfg.delayBetweenRequests]
     else []))

/-- Events of the outer loop: the inner trace of each batch, and the
delayBetweenBatches sleep after every batch except the last. -/
def schedulerTrace (cfg : RateLimitConfig) (accounts : List String) :
    List SchedEvent :=
  (batchSlices accounts cfg.batchSize).enum.flatMap (fun p =>
    batchTrace cfg p.2 ++
    (if p.1 < totalBatchesOf accounts.length cfg.batchSize - 1 then
      [SchedEvent.waitBatch cfg.delayBetweenBatches]
     else []))

/-- The limit handling: limit is tested for truthiness, so undefined and 0
both mean no slicing. -/
def applyLimit (limit : Option Nat) (accounts : List α) : List α :=
  match limit with
  | none => accounts
  | some l => if l == 0 then accounts else accounts.take l

/-- Consecutive chunks of size bs, with explicit fuel to keep the recursion
structural. -/
def chunksOfAux (bs : Nat) : Nat → List α → List (List α)
  | 0, _ => []
  | _, [] => []
  | fuel + 1, l => l.take bs :: chunksOfAux bs fuel (l.drop bs)

/-- Partition of a list into consecutive chunks of size bs. -/
def chunksOf (bs : Nat) (l : List α) : List (List α) :=
  chunksOfAux bs l.length l

/-- Specification shape of one batch: lookups separated by the request
delay. -/
def specBatchTrace (cfg : RateLimitConfig) (batch : List String) :
    List SchedEvent :=
  (batch.map SchedEvent.lookup).intersperse
    (SchedEvent.waitRequest cfg.delayBetweenRequests)

/-- Specification shape of the whole run: batch traces separated by the batch
delay. -/
def specSchedulerTrace (cfg : RateLimitConfig) (accounts : List String) :
    List SchedEvent :=
  (((chunksOf cfg.batchSize accounts).map (specBatchTrace cfg)).intersperse
    [SchedEvent.waitBatch cfg.delayBetweenBatches]).flatten

/-- Projection of the lookup events. -/
def lookupOf : SchedEvent → Option String
  | .lookup u => some u
  | _ => none

/-! ### The Risk Scoring Engine (clearDb.ts) -/

/-- The CRITICAL_CATEGORIES list of clearDb.ts. -/
def CRITICAL_CATEGORIES : List String :=
  ["bank", "banking", "financial", "finance", "paypal", "venmo", "cash",
   "investment", "trading", "crypto", "bitcoin", "wallet", "credit", "loan",
   "mortgage",
   "work", "office", "company", "corporate", "enterprise", "business",
   "professional", "gmail", "outlook", "email", "microsoft", "google", "aws",
   "azure", "office365",
   "government", "gov", "irs", "tax", "legal", "court", "dmv",
   "social security",
   "health", "medical", "hospital", "doctor", "pharmacy", "insurance",
   "utility", "electric", "gas", "water", "internet", "phone", "mobile"]

/-- Embedding of isCriticalAccount: searches the lower cased concatenation of
name, a space and url for any category substring. -/
def isCriticalAccount (name url : String) : Bool :=
  let searchText := asciiLower (name ++ " " ++ url)
  CRITICAL_CATEGORIES.any (fun category => strIncludes searchText category)

/-- Embedding of isPasswordOld.  A null timestamp counts as old; the cutoff
value models the Date twelve months before now, and a timestamp the Date
constructor cannot parse compares as NaN, which makes the less than test
false. -/
def isPasswordOld (lastCheckedAt : Option String) (cutoff : Nat) : Bool :=
  match lastCheckedAt with
  | none => true
  | some s =>
    match dateVal s with
    | none => false
    | some t => t < cutoff

/-- The RiskWeights interface of clearDb.ts. -/
structure RiskWeights where
  compromisedPassword : Nat
  emailBreachesPerBreach : Nat
  criticalAccountCategory : Nat
  oldPasswordAge : Nat
  weakPassword : Nat
  duplicatePassword : Nat
  noTwoFactorAuth : Nat

/-- The DEFAULT_RISK_WEIGHTS constant of clearDb.ts. -/
def DEFAULT_RISK_WEIGHTS : RiskWeights :=
  { compromisedPassword := 50, emailBreachesPerBreach := 10,
    criticalAccountCategory := 30, oldPasswordAge := 15, weakPassword := 20,
    duplicatePassword := 15, noTwoFactorAuth := 10 }

/-- The numeric reading of the count property used in the breach score
multiplication.  Blobs written by this program always carry an integer here;
for a non numeric count JavaScript would coerce, which no claim depends on,
and the model reads 0. -/
def jsonCountVal (j : Json) : Int :=
  match j.getField "count" with
  | some (.num n) => n
  | _ => 0

structure RiskResult where
  score : Int
  factors : List String
deriving DecidableEq

/-- Step 2 of calculateRiskScore: the breach_info contribution.  The entry
guard is the truthiness of the column value (null and the empty string are
falsy), JSON.parse failure is caught and skipped, and points are added only
when both breached and count are truthy, capped at 50 after the multiply. -/
def breachStep (entry : Row) (weights : RiskWeights) : Int × List String :=
  match entry.breach_info with
  | none => (0, [])
  | some s =>
    if s == "" then (0, [])
    else
      match jsonParse s with
      | none => (0, [])
      | some j =>
        if jsTruthy (j.getField "breached") && jsTruthy (j.getField "count")
        then
          let n := jsonCountVal j
          (min (n * (weights.emailBreachesPerBreach : Int)) 50,
           ["Email found in " ++ toString n ++ " data breach" ++
            (if n > 1 then "es" else "")])
        else (0, [])

/-- Embedding of calculateRiskScore: the six contributions in source order,
the final Math.min(100, Math.round(score)) (the rounding is the identity
because every contribution is an integer), and the factor strings in the
order pushed. -/
def calculateRiskScore (cutoff : Nat) (entry : Row) (allEntries : List Row)
    (weights : RiskWeights) : RiskResult :=
  let c : Int × List String :=
    if entry.compromised == some true then
      ((weights.compromisedPassword : Int), ["Password found in data breaches"])
    else (0, [])
  let b := breachStep entry weights
  let k : Int × List String :=
    if isCriticalAccount entry.name entry.url then
      ((weights.criticalAccountCategory : Int),
       ["Critical account category (banking, work, etc.)"])
    else (0, [])
  let a : Int × List String :=
    if isPasswordOld entry.last_checked_at cutoff then
      ((weights.oldPasswordAge : Int),
       ["Password not updated in over 12 months"])
    else (0, [])
  let pw := calculatePasswordStrength entry.password
  let w : Int × List String :=
    if pw > 0 then
      ((jsRoundHalfUp (pw * weights.weakPassword) 100 : Int),
       if pw > 50 then ["Very weak password"]
       else if pw > 25 then ["Weak password"] else [])
    else (0, [])
  let duplicateCount := allEntries.countP (fun other =>
    other.id != entry.id && other.password == entry.password &&
    entry.password != "")
  let d : Int × List String :=
    if duplicateCount > 0 then
      ((weights.duplicatePassword : Int),
       ["Password reused across " ++ toString (duplicateCount + 1) ++
        " accounts"])
    else (0, [])
  { score := min 100 (c.1 + b.1 + k.1 + a.1 + w.1 + d.1)
    factors := c.2 ++ b.2 ++ k.2 ++ a.2 ++ w.2 ++ d.2 }

/-! ### Claim side readings of the scoring formula -/

/-- The breached flag of the breach state a record carries: the truthiness of
the breached property of the parsed blob. -/
def entryBreachedFlag (entry : Row) : Bool :=
  match entry.breach_info with
  | none => false
  | some s =>
    if s == "" then false
    else
      match jsonParse s with
      | none => false
      | some j => jsTruthy (j.getField "breached")

/-- The breach count of the breach state a record carries. -/
def entryBreachCount (entry : Row) : Int :=
  match entry.breach_info with
  | none => 0
  | some s =>
    if s == "" then 0
    else
      match jsonParse s with
      | none => 0
      | some j => jsonCountVal j

/-- Some other record of the set carries the same nonempty secret. -/
def hasDuplicateSecret (entry : Row) (allEntries : List Row) : Bool :=
  allEntries.any (fun other =>
    other.id != entry.id && other.password == entry.password &&
    entry.password != "")

/-- The closed scoring formula of the specification with default weights. -/
def riskFormula (cutoff : Nat) (entry : Row) (allEntries : List Row) : Int :=
  let c : Int := if entry.compromised == some true then 50 else 0
  let b : Int :=
    if entryBreachedFlag entry then min (entryBreachCount entry * 10) 50
    else 0
  let k : Int := if isCriticalAccount entry.name entry.url then 30 else 0
  let a : Int := if isPasswordOld entry.last_checked_at cutoff then 15 else 0
  let w : Int :=
    (jsRoundHalfUp (calculatePasswordStrength entry.password * 20) 100 : Int)
  let d : Int := if hasDuplicateSecret entry allEntries then 15 else 0
  min 100 (c + b + k + a + w + d)

/-- The blob carries a numeric or absent count property wherever it parses;
this is where the shallow embedding is faithful to the JavaScript arithmetic,
and it holds for every blob this program writes. -/
def countFieldOk (entry : Row) : Bool :=
  match entry.breach_info with
  | none => true
  | some s =>
    if s == "" then true
    else
      match jsonParse s with
      | none => true
      | some j =>
        match j.getField "count" with
        | none => true
        | some (.num _) => true
        | some _ => false

/-- A stored blob that the scoring engine ignores: not valid JSON, or parsed
without a truthy breached property together with a truthy count property. -/
def badBlob (s : String) : Bool :=
  match jsonParse s with
  | none => true
  | some j =>
    !(jsTruthy (j.getField "breached") && jsTruthy (j.getField "count"))

/-! ### Claim side readings for the deduplicator and the sort order -/

/-- Whitespace trimming at both ends, the trim of the claimed normalization. -/
def trimWs (s : String) : String :=
  (((s.toList.dropWhile isWsChar).reverse.dropWhile isWsChar).reverse).asString

/-- The normalization the specification claims: lower casing and trimming. -/
def specNormalize (s : String) : String :=
  trimWs (asciiLower s)

/-- The descending order the claim states for the persisted breach list,
with a missing date as the earliest possible value: a real date may never
follow a missing one. -/
def claimDescGe (a b : BreachInfo) : Bool :=
  match (if a.BreachDate == "" then none else dateVal a.BreachDate),
      (if b.BreachDate == "" then none else dateVal b.BreachDate) with
  | _, none => true
  | none, some _ => false
  | some ka, some kb => kb ≤ ka

/-! ### Sample data used by concrete witnesses and counterexamples -/

def wRowA : Row :=
  { id := 1, name := "GitHub", url := "https://github.com",
    username := "A@x.com", password := "pw1", compromised := none,
    source := "csv", last_checked_at := none, notes := none,
    breach_info := none }

def wRowB : Row := { wRowA with id := 2, username := "a@X.com" }

def wRowC : Row := { wRowA with id := 3, username := "c@z.com" }

def rowSpacey : Row := { wRowA with id := 9, username := " A@x.com" }

def breach2020 : BreachInfo :=
  { Name := "Alpha", Title := "Alpha Breach", Domain := "alpha.example",
    BreachDate := "2020-01-17", AddedDate := "2020-02-01",
    DataClasses := ["Email addresses", "Passwords"], Description := "" }

def breach2023 : BreachInfo :=
  { breach2020 with
    Name := "Beta"
    Title := "Beta Breach"
    Domain := "beta.example"
    BreachDate := "2023-05-01" }

def breachNoDate : BreachInfo :=
  { breach2020 with Name := "MissingDate", BreachDate := "" }

def breachOld1950 : BreachInfo :=
  { breach2020 with Name := "Ancient", BreachDate := "1950-01-01" }

/-- A response schedule hitting the rate limit twice before a 404. -/
def respTwice429 : Nat → HibpResponse :=
  fun i => if i < 2 then .rateLimited else .notFound

/-! ## Theorems

Helper lemmas first, then one theorem per claim with its witness or
counterexample. -/

theorem insertLeB_perm (le : α → α → Bool) (x : α) (l : List α) :
    (insertLeB le x l).Perm (x :: l) := by
  induction l with
  | nil => exact List.Perm.refl _
  | cons y ys ih =>
    unfold insertLeB
    split
    · exact List.Perm.refl _
    · exact (ih.cons y).trans (List.Perm.swap x y ys)

theorem sortByB_perm (le : α → α → Bool) (l : List α) :
    (sortByB le l).Perm l := by
  induction l with
  | nil => exact List.Perm.refl _
  | cons x xs ih =>
    exact (insertLeB_perm le x (sortByB le xs)).trans (ih.cons x)

theorem insertLeB_pairwise (le : α → α → Bool)
    (htrans : ∀ a b c, le a b = true → le b c = true → le a c = true)
    (htot : ∀ a b, le a b = true ∨ le b a = true) (x : α) {l : List α}
    (h : l.Pairwise (fun a b => le a b = true)) :
    (insertLeB le x l).Pairwise (fun a b => le a b = true) := by
  induction l with
  | nil => simp [insertLeB]
  | cons y ys ih =>
    rw [List.pairwise_cons] at h
    unfold insertLeB
    split
    · rename_i hxy
      rw [List.pairwise_cons]
      constructor
      · intro z hz
        rcases List.mem_cons.mp hz with hzy | hzys
        · exact hzy ▸ hxy
        · exact htrans x y z hxy (h.1 z hzys)
      · exact List.pairwise_cons.mpr h
    · rename_i hxy
      have hyx : le y x = true := by
        rcases htot x y with h1 | h1
        · exact absurd h1 hxy
        · exact h1
      rw [List.pairwise_cons]
      constructor
      · intro z hz
        rcases List.mem_cons.mp ((insertLeB_perm le x ys).mem_iff.mp hz) with
          hzx | hzys
        · exact hzx ▸ hyx
        · exact h.1 z hzys
      · exact ih h.2

theorem sortByB_pairwise (le : α → α → Bool)
    (htrans : ∀ a b c, le a b = true → le b c = true → le a c = true)
    (htot : ∀ a b, le a b = true ∨ le b a = true) (l : List α) :
    (sortByB le l).Pairwise (fun a b => le a b = true) := by
  induction l with
  | nil => simp [sortByB]
  | cons x xs ih => exact insertLeB_pairwise le htrans htot x ih

/-! ### Order facts about the lexicographic string comparison -/

theorem charToNat_inj {a b : Char} (h : a.toNat = b.toNat) : a = b :=
  Char.ext (UInt32.ext h)

theorem string_eq_of_toList_eq {s t : String} (h : s.toList = t.toList) :
    s = t := by
  cases s
  cases t
  simp only [String.toList] at h
  simpa using congrArg String.mk h

theorem lexLe_total (a b : List Char) : lexLe a b = true ∨ lexLe b a = true := by
  induction a generalizing b with
  | nil => left; rfl
  | cons x xs ih =>
    cases b with
    | nil => right; rfl
    | cons y ys =>
      by_cases hxy : x.toNat < y.toNat
      · left; simp [lexLe, hxy]
      · by_cases hyx : y.toNat < x.toNat
        · right; simp [lexLe, hyx]
        · rcases ih ys with h | h
          · left; simp [lexLe, hxy, hyx, h]
          · right; simp [lexLe, hxy, hyx, h]

theorem lexLe_trans (a b c : List Char) (hab : lexLe a b = true)
    (hbc : lexLe b c = true) : lexLe a c = true := by
  induction a generalizing b c with
  | nil => rfl
  | cons x xs ih =>
    cases b with
    | nil => simp [lexLe] at hab
    | cons y ys =>
      cases c with
      | nil => simp [lexLe] at hbc
      | cons z zs =>
        simp only [lexLe] at hab hbc ⊢
        by_cases h1 : x.toNat < y.toNat
        · by_cases h2 : y.toNat < z.toNat
          · simp [show x.toNat < z.toNat by omega]
          · by_cases h3 : z.toNat < y.toNat
            · simp [h2, h3] at hbc
            · simp [show x.toNat < z.toNat by omega]
        · by_cases h4 : y.toNat < x.toNat
          · simp [h1, h4] at hab
          · by_cases h2 : y.toNat < z.toNat
            · simp [show x.toNat < z.toNat by omega]
            · by_cases h3 : z.toNat < y.toNat
              · simp [h2, h3] at hbc
              · simp [h1, h4] at hab
                simp [h2, h3] at hbc
                simp [show ¬ x.toNat < z.toNat by omega,
                  show ¬ z.toNat < x.toNat by omega]
                exact ih ys zs hab hbc

theorem lexLe_antisymm (a b : List Char) (hab : lexLe a b = true)
    (hba : lexLe b a = true) : a = b := by
  induction a generalizing b with
  | nil =>
    cases b with
    | nil => rfl
    | cons y ys => simp [lexLe] at hba
  | cons x xs ih =>
    cases b with
    | nil => simp [lexLe] at hab
    | cons y ys =>
      simp only [lexLe] at hab hba
      by_cases hxy : x.toNat < y.toNat
      · simp [show ¬ y.toNat < x.toNat by omega, hxy] at hba
      · by_cases hyx : y.toNat < x.toNat
        · simp [hxy, hyx] at hab
        · simp [hxy, hyx] at hab hba
          have hx : x = y := charToNat_inj (by omega)
          have hxs : xs = ys := ih ys hab hba
          rw [hx, hxs]

theorem strLe_total (a b : String) : strLe a b = true ∨ strLe b a = true :=
  lexLe_total a.toList b.toList

theorem strLe_trans (a b c : String) (hab : strLe a b = true)
    (hbc : strLe b c = true) : strLe a c = true :=
  lexLe_trans a.toList b.toList c.toList hab hbc

theorem strLe_antisymm (a b : String) (hab : strLe a b = true)
    (hba : strLe b a = true) : a = b :=
  string_eq_of_toList_eq (lexLe_antisymm a.toList b.toList hab hba)


/-! ### Helper lemmas about the update applier -/

theorem mem_updateMatching {db : List Row} {u blob : String} {r : Row}
    (hr : r ∈ updateMatching db u blob) (hm : matchesUser u r = true) :
    r.breach_info = some blob := by
  rcases List.mem_map.mp hr with ⟨r0, _, he⟩
  by_cases h : matchesUser u r0 = true
  · rw [← he, if_pos h]
  · rw [← he, if_neg h] at hm
    exact absurd hm h

theorem updateMatching_no_match {db : List Row} {u blob : String}
    (h : ∀ r ∈ db, matchesUser u r = false) :
    updateMatching db u blob = db := by
  unfold updateMatching
  have hid : ∀ r ∈ db,
      (if matchesUser u r then { r with breach_info := some blob } else r) =
        id r := by
    intro r hr
    simp [h r hr]
  rw [List.map_congr_left hid, List.map_id]

/-! ### Claim C9 -/

/-- C9: calculatePasswordStrength is a total deterministic function (it is a
Lean function) whose value always lies in 0..100; the empty secret scores
exactly 100; and the secret Tr0ub4dor&3xtra! (sixteen characters, all four
character classes, no common or sequential substring, no triple repeat)
scores below 20. -/
theorem c9_password_weakness_range_and_examples :
    (∀ s : String, calculatePasswordStrength s ≤ 100) ∧
    calculatePasswordStrength "" = 100 ∧
    calculatePasswordStrength "Tr0ub4dor&3xtra!" < 20 := by
  refine ⟨fun s => ?_, by decide, by decide⟩
  unfold calculatePasswordStrength
  split
  · exact Nat.le_refl 100
  · exact Nat.min_le_left 100 _

/-! ### Claim C1 -/

/-- C1: for every identity and lookup outcome, after the Update Applier
performs its write (the outcomes that write are exactly the non null lookup
results) all records whose lower cased username equals the identity carry an
identical breach_info value; and for every outcome, when no record matches
the identity the applier changes no record at all. -/
theorem c1_update_applier_fanout (now u : String) (db : List Row)
    (res : Option (List BreachInfo)) :
    (∀ r1 r2, res ≠ none → r1 ∈ (processAccount now db u res).1 →
      r2 ∈ (processAccount now db u res).1 → matchesUser u r1 = true →
      matchesUser u r2 = true → r1.breach_info = r2.breach_info) ∧
    ((∀ r ∈ db, matchesUser u r = false) →
      (processAccount now db u res).1 = db) := by
  constructor
  · intro r1 r2 hres h1 h2 m1 m2
    match res with
    | none => exact absurd rfl hres
    | some [] =>
      simp only [processAccount] at h1 h2
      rw [mem_updateMatching h1 m1, mem_updateMatching h2 m2]
    | some (b :: bs) =>
      simp only [processAccount] at h1 h2
      rw [mem_updateMatching h1 m1, mem_updateMatching h2 m2]
  · intro hnone
    match res with
    | none => rfl
    | some [] => exact updateMatching_no_match hnone
    | some (b :: bs) => exact updateMatching_no_match hnone

/-- Witness for C1 at a concrete input: two rows spelling the same identity
in different case both end up with the same written state, and a database
whose only row carries a different identity is left unchanged. -/
theorem c1_update_applier_fanout_witness :
    ({ wRowA with breach_info := some (safeBlob "2024") }).breach_info =
      ({ wRowB with breach_info := some (safeBlob "2024") }).breach_info ∧
    (processAccount "2024" [wRowC] "a@x.com" (some [])).1 = [wRowC] :=
  ⟨(c1_update_applier_fanout "2024" "a@x.com" [wRowA, wRowB] (some [])).1
      { wRowA with breach_info := some (safeBlob "2024") }
      { wRowB with breach_info := some (safeBlob "2024") }
      (by decide) (by decide) (by decide) (by decide) (by decide),
    (c1_update_applier_fanout "2024" "a@x.com" [wRowC] (some [])).2
      (by decide)⟩


/-! ### Helper lemmas for the breach sort and the serialized state -/

theorem insertLeB_pairwise_of (le : α → α → Bool) (P : α → Prop)
    (htrans : ∀ a b c, P a → P b → P c → le a b = true → le b c = true →
      le a c = true)
    (htot : ∀ a b, P a → P b → le a b = true ∨ le b a = true)
    (x : α) (hx : P x) : ∀ l : List α, (∀ y ∈ l, P y) →
    l.Pairwise (fun a b => le a b = true) →
    (insertLeB le x l).Pairwise (fun a b => le a b = true) := by
  intro l
  induction l with
  | nil => intro _ _; simp [insertLeB]
  | cons y ys ih =>
    intro hP h
    rw [List.pairwise_cons] at h
    unfold insertLeB
    split
    · rename_i hxy
      rw [List.pairwise_cons]
      refine ⟨fun z hz => ?_, List.pairwise_cons.mpr h⟩
      rcases List.mem_cons.mp hz with hzy | hzys
      · exact hzy ▸ hxy
      · exact htrans x y z hx (hP y (by simp)) (hP z (by simp [hzys])) hxy
          (h.1 z hzys)
    · rename_i hxy
      have hyx : le y x = true := by
        rcases htot x y hx (hP y (by simp)) with h1 | h1
        · exact absurd h1 hxy
        · exact h1
      rw [List.pairwise_cons]
      constructor
      · intro z hz
        rcases List.mem_cons.mp ((insertLeB_perm le x ys).mem_iff.mp hz) with
          hzx | hzys
        · exact hzx ▸ hyx
        · exact h.1 z hzys
      · exact ih (fun z hz => hP z (by simp [hz])) h.2

theorem sortByB_pairwise_of (le : α → α → Bool) (P : α → Prop)
    (htrans : ∀ a b c, P a → P b → P c → le a b = true → le b c = true →
      le a c = true)
    (htot : ∀ a b, P a → P b → le a b = true ∨ le b a = true) :
    ∀ l : List α, (∀ y ∈ l, P y) →
    (sortByB le l).Pairwise (fun a b => le a b = true) := by
  intro l
  induction l with
  | nil => intro _; simp [sortByB]
  | cons x xs ih =>
    intro hP
    exact insertLeB_pairwise_of le P htrans htot x (hP x (by simp)) _
      (fun y hy => hP y (by simp [(sortByB_perm le xs).mem_iff.mp hy]))
      (ih (fun y hy => hP y (by simp [hy])))

theorem breachDescLe_trans_of {a b c : BreachInfo}
    (ha : (breachSortKey a).isSome = true)
    (hb : (breachSortKey b).isSome = true)
    (hc : (breachSortKey c).isSome = true)
    (hab : breachDescLe a b = true) (hbc : breachDescLe b c = true) :
    breachDescLe a c = true := by
  rcases Option.isSome_iff_exists.mp ha with ⟨ka, hka⟩
  rcases Option.isSome_iff_exists.mp hb with ⟨kb, hkb⟩
  rcases Option.isSome_iff_exists.mp hc with ⟨kc, hkc⟩
  unfold breachDescLe at hab hbc ⊢
  rw [hka, hkb] at hab
  rw [hkb, hkc] at hbc
  rw [hka, hkc]
  simp only [decide_eq_true_eq] at hab hbc ⊢
  omega

theorem breachDescLe_total (a b : BreachInfo) :
    breachDescLe a b = true ∨ breachDescLe b a = true := by
  unfold breachDescLe
  rcases hka : breachSortKey a with _ | ka <;>
    rcases hkb : breachSortKey b with _ | kb <;> simp
  omega

/-- The sorted copy is ordered descending by the date key wherever the dates
are parseable (missing dates already replaced by the epoch key). -/
theorem sortBreachesDesc_sorted (bs : List BreachInfo)
    (hdates : ∀ b ∈ bs, (breachSortKey b).isSome = true) :
    (sortBreachesDesc bs).Pairwise
      (fun a b => (breachSortKey b).getD 0 ≤ (breachSortKey a).getD 0) := by
  have hs : (sortBreachesDesc bs).Pairwise
      (fun a b => breachDescLe a b = true) :=
    sortByB_pairwise_of breachDescLe
      (fun b => (breachSortKey b).isSome = true)
      (fun a b c hPa hPb hPc => breachDescLe_trans_of hPa hPb hPc)
      (fun a b _ _ => breachDescLe_total a b) bs hdates
  refine hs.imp_of_mem ?_
  intro a b hma hmb hab
  have hPa := hdates a ((sortByB_perm breachDescLe bs).mem_iff.mp hma)
  have hPb := hdates b ((sortByB_perm breachDescLe bs).mem_iff.mp hmb)
  rcases Option.isSome_iff_exists.mp hPa with ⟨ka, hka⟩
  rcases Option.isSome_iff_exists.mp hPb with ⟨kb, hkb⟩
  unfold breachDescLe at hab
  rw [hka, hkb] at hab
  simp only [decide_eq_true_eq] at hab
  simp [hka, hkb, hab]

/-- The Found write text equals the serialized text of its typed state. -/
theorem breachedBlob_eq (now : String) (bs : List BreachInfo) :
    breachedBlob now bs =
      writtenBlobText (.breached now ((sortBreachesDesc bs).map toPersisted))
    := by
  unfold breachedBlob writtenBlobText
  simp only [List.length_map, List.map_map]
  rfl

/-! ### Claim C2 -/

/-- C2 counterexample: the applier sorts a missing breach date as 1970-01-01,
not as the earliest possible date.  With one missing date and one breach
dated 1950-01-01 the persisted order puts the missing date first, while the
claimed reading (missing date sorts as the earliest possible date, so in
descending order it comes last) forbids that order. -/
theorem c2_missing_date_sorts_as_epoch :
    sortBreachesDesc [breachNoDate, breachOld1950] =
      [breachNoDate, breachOld1950] ∧
    claimDescGe breachNoDate breachOld1950 = false :=
  ⟨by decide, by decide⟩

/-- C2 (amended): for every identity, the applier maps the outcome to the
written state as follows.  A null result (rate limited past the retry bound,
or any error) writes nothing and counts one error.  A result list bs writes
to every record sharing the identity the single serialized state whose
checked flag is true, whose breached flag is the nonemptiness of bs, whose
count is the length of bs, whose checkedAt is now, and whose breach list is
bs sorted by breach date descending - where a missing date is treated as
1970-01-01 (the claim said: as the earliest possible date) - with each entry
reduced to name, title, domain, date and dataTypes. -/
theorem c2_outcome_mapping (now u : String) (db : List Row)
    (bs : List BreachInfo)
    (hdates : ∀ b ∈ bs, (breachSortKey b).isSome = true) :
    processAccount now db u none = (db, ⟨0, 0, 1⟩) ∧
    (processAccount now db u (some bs)).1 =
      db.map (fun r =>
        if matchesUser u r then
          { r with breach_info := some (writtenBlobText (writtenStateD now bs)) }
        else r) ∧
    stateBreached (writtenStateD now bs) = !bs.isEmpty ∧
    stateCheckedAt (writtenStateD now bs) = now ∧
    stateCount (writtenStateD now bs) = bs.length ∧
    stateBreaches (writtenStateD now bs) =
      (sortBreachesDesc bs).map toPersisted ∧
    (sortBreachesDesc bs).Perm bs ∧
    (sortBreachesDesc bs).Pairwise
      (fun a b => (breachSortKey b).getD 0 ≤ (breachSortKey a).getD 0) := by
  refine ⟨rfl, ?_, ?_, ?_, ?_, ?_, sortByB_perm _ bs,
    sortBreachesDesc_sorted bs hdates⟩
  · match bs with
    | [] => rfl
    | b :: rest =>
      show updateMatching db u (breachedBlob now (b :: rest)) = _
      rw [breachedBlob_eq]
      rfl
  · match bs with
    | [] => rfl
    | b :: rest => rfl
  · match bs with
    | [] => rfl
    | b :: rest => rfl
  · match bs with
    | [] => rfl
    | b :: rest =>
      show ((sortBreachesDesc (b :: rest)).map toPersisted).length = _
      rw [List.length_map]
      exact (sortByB_perm breachDescLe (b :: rest)).length_eq
  · match bs with
    | [] => rfl
    | b :: rest => rfl

/-- Witness for C2 at a concrete input with two real dates. -/
theorem c2_outcome_mapping_witness :
    processAccount "T" [wRowA] "a@x.com" none = ([wRowA], ⟨0, 0, 1⟩) ∧
    (processAccount "T" [wRowA] "a@x.com" (some [breach2020, breach2023])).1 =
      [wRowA].map (fun r =>
        if matchesUser "a@x.com" r then
          { r with breach_info := some (writtenBlobText (writtenStateD "T" [breach2020, breach2023])) }
        else r) ∧
    stateBreached (writtenStateD "T" [breach2020, breach2023]) =
      !([breach2020, breach2023].isEmpty) ∧
    stateCheckedAt (writtenStateD "T" [breach2020, breach2023]) = "T" ∧
    stateCount (writtenStateD "T" [breach2020, breach2023]) =
      [breach2020, breach2023].length ∧
    stateBreaches (writtenStateD "T" [breach2020, breach2023]) =
      (sortBreachesDesc [breach2020, breach2023]).map toPersisted ∧
    (sortBreachesDesc [breach2020, breach2023]).Perm
      [breach2020, breach2023] ∧
    (sortBreachesDesc [breach2020, breach2023]).Pairwise
      (fun a b => (breachSortKey b).getD 0 ≤ (breachSortKey a).getD 0) :=
  c2_outcome_mapping "T" "a@x.com" [wRowA] [breach2020, breach2023]
    (by decide)


/-! ### Helper lemmas for the serialization round trip -/

theorem strListOfJson_map : ∀ l : List String,
    strListOfJson (l.map Json.str) = some l := by
  intro l
  induction l with
  | nil => rfl
  | cons a t ih => simp [strListOfJson, ih]

theorem persistedBreachOfJson_round (p : PersistedBreach) :
    persistedBreachOfJson (persistedBreachJson p) = some p := by
  unfold persistedBreachOfJson persistedBreachJson
  simp [Json.getField, List.lookup, strListOfJson_map]

theorem breachListOfJson_map : ∀ entries : List PersistedBreach,
    breachListOfJson (entries.map persistedBreachJson) = some entries := by
  intro entries
  induction entries with
  | nil => rfl
  | cons p t ih => simp [breachListOfJson, persistedBreachOfJson_round, ih]

theorem stateOfJson_round (st : WrittenState) :
    stateOfJson (stateJson st) = some st := by
  cases st with
  | safe t => rfl
  | breached t entries =>
    unfold stateOfJson stateJson
    simp [Json.getField, List.lookup, breachListOfJson_map]

/-! ### Claim C8 -/

/-- C8 counterexample: the persisted Found shape stores the breach count
under the key count, not breachCount, so the claimed shape with a breachCount
key does not round trip; shown on the Found outcome with breaches dated 2020
and 2023 (the parse of the exact persisted text agrees). -/
theorem c8_count_key_not_breachCount :
    Json.keys (stateJson (writtenStateD "T" [breach2020, breach2023])) =
      ["checked", "breached", "count", "checkedAt", "breaches"] ∧
    "breachCount" ∉
      Json.keys (stateJson (writtenStateD "T" [breach2020, breach2023])) ∧
    jsonParse (breachedBlob "T" [breach2020, breach2023]) =
      some (stateJson (writtenStateD "T" [breach2020, breach2023])) :=
  ⟨by decide, by decide, by rfl⟩

/-- C8 (amended): the persisted serialization round trips exactly, with the
shape checked, breached, checkedAt plus, for a Found outcome, count (the key
the claim called breachCount) and breaches; each breaches entry carries
exactly name, title, domain, date, dataTypes; and serializing a Found
outcome with two breaches dated 2020 and 2023 persists the breaches array
ordered 2023 then 2020. -/
theorem c8_round_trip :
    (∀ st : WrittenState, stateOfJson (stateJson st) = some st) ∧
    (∀ now, Json.keys (stateJson (.safe now)) =
      ["checked", "breached", "checkedAt"]) ∧
    (∀ now entries, Json.keys (stateJson (.breached now entries)) =
      ["checked", "breached", "count", "checkedAt", "breaches"]) ∧
    (∀ p, Json.keys (persistedBreachJson p) =
      ["name", "title", "domain", "date", "dataTypes"]) ∧
    stateBreaches (writtenStateD "T" [breach2020, breach2023]) =
      [toPersisted breach2023, toPersisted breach2020] ∧
    jsonParse (writtenBlobText (writtenStateD "T" [breach2020, breach2023])) =
      some (stateJson (writtenStateD "T" [breach2020, breach2023])) :=
  ⟨stateOfJson_round, fun _ => rfl, fun _ _ => rfl, fun _ => rfl,
    by decide, by rfl⟩

/-! ### Helper lemmas about lower casing -/

theorem asciiLowerChar_at_iff (c : Char) :
    (asciiLowerChar c == '@') = (c == '@') := by
  unfold asciiLowerChar
  split
  · rename_i h
    simp only [Bool.and_eq_true, decide_eq_true_eq] at h
    have hval : (Char.ofNat (c.toNat + 32)).toNat = c.toNat + 32 := by
      have hv : (c.toNat + 32).isValidChar := Or.inl (by omega)
      unfold Char.ofNat
      rw [dif_pos hv]
      rfl
    have h64 : ('@' : Char).toNat = 64 := rfl
    have h1 : Char.ofNat (c.toNat + 32) ≠ '@' := by
      intro he
      have hq := congrArg Char.toNat he
      rw [hval, h64] at hq
      omega
    have h2 : c ≠ '@' := by
      intro he
      subst he
      rw [h64] at h
      omega
    simp [h1, h2]
  · rfl

theorem strHasChar_asciiLower_at (s : String) :
    strHasChar (asciiLower s) '@' = strHasChar s '@' := by
  show (s.toList.map asciiLowerChar).any (fun d => d == '@') =
    s.toList.any (fun d => d == '@')
  rw [List.any_map]
  rw [Bool.eq_iff_iff]
  simp only [List.any_eq_true, Function.comp]
  constructor
  · rintro ⟨d, hd, he⟩
    exact ⟨d, hd, by rw [← asciiLowerChar_at_iff]; exact he⟩
  · rintro ⟨d, hd, he⟩
    exact ⟨d, hd, by rw [asciiLowerChar_at_iff]; exact he⟩

/-! ### Claim C7 -/

/-- C7 counterexample: the deduplicator lower cases but does not trim; an
identity with a leading space keeps it, while the claimed normalization
(lower case and trim) would drop it. -/
theorem c7_no_trim :
    groupNames [rowSpacey] false = [" a@x.com"] ∧
    specNormalize " A@x.com" = "a@x.com" ∧
    (" a@x.com" : String) ≠ "a@x.com" :=
  ⟨by decide, by decide, by decide⟩

/-- C7 (amended): the deduplicator produces one group per lower cased
identity (no trimming): its output lists exactly the lower cased usernames of
the eligible rows, every listed identity contains an at sign (rows without
one are excluded entirely), the list is duplicate free and sorted
alphabetically, and the computation is a pure function of the record set, so
running it twice yields identical lists. -/
theorem c7_dedup_spec (db : List Row) (resume : Bool) :
    (∀ u, u ∈ groupNames db resume ↔
      ∃ r ∈ eligibleRows db resume, asciiLower r.username = u) ∧
    (∀ u ∈ groupNames db resume, strHasChar u '@' = true) ∧
    (groupNames db resume).Nodup ∧
    (groupNames db resume).Pairwise (fun a b => strLe a b = true) ∧
    groupNames db resume = groupNames db resume := by
  have hmem : ∀ u, u ∈ groupNames db resume ↔
      ∃ r ∈ eligibleRows db resume, asciiLower r.username = u := by
    intro u
    unfold groupNames
    rw [(sortByB_perm strLe _).mem_iff, List.mem_dedup, List.mem_map]
  refine ⟨hmem, ?_, ?_, ?_, rfl⟩
  · intro u hu
    rcases (hmem u).mp hu with ⟨r, hr, he⟩
    have hat : strHasChar r.username '@' = true := by
      have := (List.mem_filter.mp hr).2
      simp only [Bool.and_eq_true] at this
      exact this.1
    rw [← he, strHasChar_asciiLower_at]
    exact hat
  · exact ((sortByB_perm strLe _).nodup_iff).mpr (List.nodup_dedup _)
  · exact sortByB_pairwise strLe strLe_trans strLe_total _

/-- Witness for C7 at a concrete record set. -/
theorem c7_dedup_spec_witness :
    (∀ u, u ∈ groupNames [wRowA, wRowB, wRowC] false ↔
      ∃ r ∈ eligibleRows [wRowA, wRowB, wRowC] false,
        asciiLower r.username = u) ∧
    (∀ u ∈ groupNames [wRowA, wRowB, wRowC] false,
      strHasChar u '@' = true) ∧
    (groupNames [wRowA, wRowB, wRowC] false).Nodup ∧
    (groupNames [wRowA, wRowB, wRowC] false).Pairwise
      (fun a b => strLe a b = true) ∧
    groupNames [wRowA, wRowB, wRowC] false =
      groupNames [wRowA, wRowB, wRowC] false :=
  c7_dedup_spec [wRowA, wRowB, wRowC] false


/-! ### Helper lemma for the Lookup Client retry recursion -/

theorem checkBreachRetries_spec (resp : Nat → HibpResponse) :
    ∀ n rc, rc + n = maxRetries →
    (checkBreachRetries resp (n + 1) rc).2.length + rc ≤ maxRetries ∧
    (∀ i, i < (checkBreachRetries resp (n + 1) rc).2.length →
      resp (rc + i) = .rateLimited ∧
      (checkBreachRetries resp (n + 1) rc).2.getD i 0 = 2 ^ (rc + i) * 2000) ∧
    (checkBreachRetries resp (n + 1) rc).1 =
      classifyFinal (resp (rc + (checkBreachRetries resp (n + 1) rc).2.length))
    := by
  intro n
  induction n with
  | zero =>
    intro rc hrc
    have hrc3 : rc = maxRetries := by omega
    subst hrc3
    cases hr : resp maxRetries with
    | rateLimited =>
      simp only [checkBreachRetries, hr, Nat.lt_irrefl, if_false]
      refine ⟨by simp, by simp, ?_⟩
      simp [hr, classifyFinal]
    | ok bs =>
      simp only [checkBreachRetries, hr]
      exact ⟨by simp, by simp, by simp [hr, classifyFinal]⟩
    | notFound =>
      simp only [checkBreachRetries, hr]
      exact ⟨by simp, by simp, by simp [hr, classifyFinal]⟩
    | httpError st =>
      simp only [checkBreachRetries, hr]
      exact ⟨by simp, by simp, by simp [hr, classifyFinal]⟩
    | netError =>
      simp only [checkBreachRetries, hr]
      exact ⟨by simp, by simp, by simp [hr, classifyFinal]⟩
  | succ n ih =>
    intro rc hrc
    have hlt : rc < maxRetries := by omega
    cases hr : resp rc with
    | rateLimited =>
      have hstep : checkBreachRetries resp (n + 1 + 1) rc =
          ((checkBreachRetries resp (n + 1) (rc + 1)).1,
           2 ^ rc * 2000 :: (checkBreachRetries resp (n + 1) (rc + 1)).2) := by
        simp only [checkBreachRetries, hr, hlt, if_true]
      rcases ih (rc + 1) (by omega) with ⟨ih1, ih2, ih3⟩
      rw [hstep]
      refine ⟨by simp; omega, ?_, ?_⟩
      · intro i hi
        match i with
        | 0 =>
          refine ⟨by simpa using hr, ?_⟩
          simp
        | j + 1 =>
          simp only [List.length_cons] at hi
          have hj : j < (checkBreachRetries resp (n + 1) (rc + 1)).2.length :=
            by omega
          rcases ih2 j hj with ⟨hresp, hval⟩
          constructor
          · rw [show rc + (j + 1) = rc + 1 + j by omega]
            exact hresp
          · rw [List.getD_cons_succ,
              show rc + (j + 1) = rc + 1 + j from by omega]
            exact hval
      · rw [ih3]
        congr 2
        simp only [List.length_cons]
        omega
    | ok bs =>
      simp only [checkBreachRetries, hr]
      exact ⟨by simp; omega, by simp, by simp [hr, classifyFinal]⟩
    | notFound =>
      simp only [checkBreachRetries, hr]
      exact ⟨by simp; omega, by simp, by simp [hr, classifyFinal]⟩
    | httpError st =>
      simp only [checkBreachRetries, hr]
      exact ⟨by simp; omega, by simp, by simp [hr, classifyFinal]⟩
    | netError =>
      simp only [checkBreachRetries, hr]
      exact ⟨by simp; omega, by simp, by simp [hr, classifyFinal]⟩

/-! ### Claim C5 -/

/-- C5: with an API key configured, the Lookup Client retries a rate limited
response at most 3 times, every performed wait doubles from the 2000
millisecond base (2 to the attempt index times 2000), the final result is the
classification of the first response that is not retried - only 200 and 404
equivalents produce a non null result, rate limit exhaustion and every other
failure produce null - and a null result makes the scheduler count one error
and write nothing. -/
theorem c5_lookup_retry_policy (apiKey : String) (resp : Nat → HibpResponse)
    (hkey : apiKey ≠ "") :
    (checkBreachInfo apiKey resp).2.length ≤ 3 ∧
    (∀ i, i < (checkBreachInfo apiKey resp).2.length →
      resp i = .rateLimited ∧
      (checkBreachInfo apiKey resp).2.getD i 0 = 2 ^ i * 2000) ∧
    (checkBreachInfo apiKey resp).1 =
      classifyFinal (resp (checkBreachInfo apiKey resp).2.length) ∧
    (∀ now db u, (processAccount now db u none).1 = db ∧
      (processAccount now db u none).2 = ⟨0, 0, 1⟩) := by
  have hcond : ¬ (apiKey == "") = true := by simp [hkey]
  have he : checkBreachInfo apiKey resp =
      checkBreachRetries resp (maxRetries + 1) 0 := by
    unfold checkBreachInfo
    rw [if_neg hcond]
  rcases checkBreachRetries_spec resp maxRetries 0 (by omega) with
    ⟨h1, h2, h3⟩
  rw [he]
  refine ⟨by simpa [maxRetries] using h1, ?_, ?_, fun now db u => ⟨rfl, rfl⟩⟩
  · intro i hi
    rcases h2 i hi with ⟨ha, hb⟩
    rw [Nat.zero_add] at ha hb
    exact ⟨ha, hb⟩
  · rw [h3, Nat.zero_add]

/-- Witness for C5: a schedule that is rate limited twice and then answers
404; the retries wait 2000 and 4000 milliseconds and the identity resolves
as safe. -/
theorem c5_lookup_retry_policy_witness :
    (checkBreachInfo "key" respTwice429).2.length ≤ 3 ∧
    (∀ i, i < (checkBreachInfo "key" respTwice429).2.length →
      respTwice429 i = .rateLimited ∧
      (checkBreachInfo "key" respTwice429).2.getD i 0 = 2 ^ i * 2000) ∧
    (checkBreachInfo "key" respTwice429).1 =
      classifyFinal (respTwice429 (checkBreachInfo "key" respTwice429).2.length) ∧
    (∀ now db u, (processAccount now db u none).1 = db ∧
      (processAccount now db u none).2 = ⟨0, 0, 1⟩) :=
  c5_lookup_retry_policy "key" respTwice429 (by decide)


/-! ### Helper lemmas for the scheduler trace -/

theorem enumFrom_flatMap_last (g : α → List SchedEvent)
    (sep : List SchedEvent) :
    ∀ (t : List α) (k N : Nat), k + t.length = N + 1 →
    (List.enumFrom k t).flatMap
      (fun p => g p.2 ++ if p.1 < N then sep else []) =
    ((t.map g).intersperse sep).flatten
  | [], k, N, h => by simp at h; simp [List.enumFrom]
  | [a], k, N, h => by
    have hk : k = N := by simp at h; omega
    subst hk
    simp [List.enumFrom]
  | a :: b :: t, k, N, h => by
    have hk : k < N := by simp at h; omega
    have ih := enumFrom_flatMap_last g sep (b :: t) (k + 1) N
      (by simp at h ⊢; omega)
    rw [List.enumFrom_cons]
    simp only [List.flatMap_cons]
    rw [ih, if_pos hk]
    simp only [List.map_cons]
    rw [List.intersperse_cons₂]
    simp only [List.flatten_cons]
    simp [List.append_assoc]

theorem flatten_intersperse_singleton (f : α → SchedEvent) (e : SchedEvent) :
    ∀ l : List α,
    ((l.map (fun a => [f a])).intersperse [e]).flatten =
      (l.map f).intersperse e
  | [] => rfl
  | [a] => rfl
  | a :: b :: t => by
    have ih := flatten_intersperse_singleton f e (b :: t)
    simp only [List.map_cons, List.intersperse_cons₂, List.flatten_cons]
    rw [List.map_cons] at ih
    rw [ih]
    rfl

theorem batchTrace_eq_spec (cfg : RateLimitConfig) (batch : List String) :
    batchTrace cfg batch = specBatchTrace cfg batch := by
  cases batch with
  | nil => rfl
  | cons a t =>
    unfold batchTrace specBatchTrace
    have h := enumFrom_flatMap_last (fun u => [SchedEvent.lookup u])
      [SchedEvent.waitRequest cfg.delayBetweenRequests] (a :: t) 0
      ((a :: t).length - 1) (by simp)
    rw [show (a :: t).enum = List.enumFrom 0 (a :: t) from rfl]
    rw [show (List.enumFrom 0 (a :: t)).flatMap
        (fun p => SchedEvent.lookup p.2 ::
          (if p.1 < (a :: t).length - 1 then
            [SchedEvent.waitRequest cfg.delayBetweenRequests] else [])) =
      (List.enumFrom 0 (a :: t)).flatMap
        (fun p => [SchedEvent.lookup p.2] ++
          (if p.1 < (a :: t).length - 1 then
            [SchedEvent.waitRequest cfg.delayBetweenRequests] else [])) from
      rfl]
    rw [h, flatten_intersperse_singleton]

theorem totalBatchesOf_cons (bs : Nat) (hbs : 0 < bs) (l : List String)
    (hl : l ≠ []) :
    totalBatchesOf l.length bs = totalBatchesOf (l.length - bs) bs + 1 := by
  have hlen : 1 ≤ l.length := by
    cases l with
    | nil => exact absurd rfl hl
    | cons a t => simp
  unfold totalBatchesOf
  have h1 : l.length + bs - 1 = (l.length - 1) + bs := by omega
  rw [h1, Nat.add_div_right _ hbs]
  rcases le_or_lt l.length bs with hle | hlt
  · have h2 : l.length - bs = 0 := by omega
    rw [h2]
    have h3 : (l.length - 1) / bs = 0 := Nat.div_eq_of_lt (by omega)
    have h4 : (0 + bs - 1) / bs = 0 := Nat.div_eq_of_lt (by omega)
    rw [h3, h4]
  · have h2 : l.length - bs + bs - 1 = l.length - 1 := by omega
    rw [h2]

theorem batchSlices_eq_chunksOfAux (bs : Nat) (hbs : 0 < bs) :
    ∀ fuel (l : List String), l.length ≤ fuel →
    batchSlices l bs = chunksOfAux bs fuel l := by
  intro fuel
  induction fuel with
  | zero =>
    intro l hl
    have hnil : l = [] := List.eq_nil_of_length_eq_zero (by omega)
    subst hnil
    show batchSlices [] bs = []
    unfold batchSlices totalBatchesOf
    simp [Nat.div_eq_of_lt (show bs - 1 < bs by omega)]
  | succ fuel ih =>
    intro l hl
    cases l with
    | nil =>
      show batchSlices [] bs = []
      unfold batchSlices totalBatchesOf
      simp [Nat.div_eq_of_lt (show bs - 1 < bs by omega)]
    | cons a t =>
      rw [show chunksOfAux bs (fuel + 1) (a :: t) =
        (a :: t).take bs :: chunksOfAux bs fuel ((a :: t).drop bs) from rfl]
      rw [← ih ((a :: t).drop bs) (by rw [List.length_drop]; simp at hl ⊢; omega)]
      unfold batchSlices
      rw [show totalBatchesOf ((a :: t).drop bs).length bs =
          totalBatchesOf ((a :: t).length - bs) bs from by
        rw [List.length_drop]]
      rw [totalBatchesOf_cons bs hbs (a :: t) (by simp)]
      rw [List.range_succ_eq_map]
      rw [List.map_cons, List.map_map]
      congr 1
      · simp
      · apply List.map_congr_left
        intro i _
        show ((a :: t).drop (Nat.succ i * bs)).take bs =
          (((a :: t).drop bs).drop (i * bs)).take bs
        rw [List.drop_drop]
        rw [show Nat.succ i * bs = bs + i * bs from by
          rw [Nat.succ_mul, Nat.add_comm]]

theorem batchSlices_eq_chunksOf (bs : Nat) (hbs : 0 < bs)
    (l : List String) : batchSlices l bs = chunksOf bs l :=
  batchSlices_eq_chunksOfAux bs hbs l.length l (Nat.le_refl _)

theorem batchSlices_length (l : List String) (bs : Nat) :
    (batchSlices l bs).length = totalBatchesOf l.length bs := by
  unfold batchSlices
  rw [List.length_map, List.length_range]

theorem schedulerTrace_eq_spec (accounts : List String) :
    schedulerTrace RATE_LIMIT accounts =
      specSchedulerTrace RATE_LIMIT accounts := by
  have hbs : 0 < RATE_LIMIT.batchSize := by decide
  cases haccounts : accounts with
  | nil => rfl
  | cons a t =>
    unfold schedulerTrace specSchedulerTrace
    have hlen : (batchSlices (a :: t) RATE_LIMIT.batchSize).length =
        totalBatchesOf (a :: t).length RATE_LIMIT.batchSize :=
      batchSlices_length _ _
    have hpos : 1 ≤ totalBatchesOf (a :: t).length RATE_LIMIT.batchSize := by
      unfold totalBatchesOf
      have h1 : (a :: t).length + RATE_LIMIT.batchSize - 1 =
          ((a :: t).length - 1) + RATE_LIMIT.batchSize := by
        simp only [List.length_cons]
        omega
      rw [h1, Nat.add_div_right _ hbs]
      exact Nat.succ_le_succ (Nat.zero_le _)
    have h := enumFrom_flatMap_last (batchTrace RATE_LIMIT)
      [SchedEvent.waitBatch RATE_LIMIT.delayBetweenBatches]
      (batchSlices (a :: t) RATE_LIMIT.batchSize) 0
      (totalBatchesOf (a :: t).length RATE_LIMIT.batchSize - 1)
      (by rw [hlen]; omega)
    rw [show (batchSlices (a :: t) RATE_LIMIT.batchSize).enum =
      List.enumFrom 0 (batchSlices (a :: t) RATE_LIMIT.batchSize) from rfl]
    rw [h]
    rw [show (batchSlices (a :: t) RATE_LIMIT.batchSize).map
        (batchTrace RATE_LIMIT) =
      (batchSlices (a :: t) RATE_LIMIT.batchSize).map
        (specBatchTrace RATE_LIMIT) from
      List.map_congr_left (fun b _ => batchTrace_eq_spec RATE_LIMIT b)]
    rw [batchSlices_eq_chunksOf _ hbs]


theorem filterMap_lookupOf_lookup (u : String) (l : List SchedEvent) :
    List.filterMap lookupOf (SchedEvent.lookup u :: l) =
      u :: List.filterMap lookupOf l := by
  simp [List.filterMap_cons, lookupOf]

theorem filterMap_lookupOf_waitRequest (ms : Nat) (l : List SchedEvent) :
    List.filterMap lookupOf (SchedEvent.waitRequest ms :: l) =
      List.filterMap lookupOf l := by
  simp [List.filterMap_cons, lookupOf]

theorem filterMap_lookupOf_waitBatch (ms : Nat) (l : List SchedEvent) :
    List.filterMap lookupOf (SchedEvent.waitBatch ms :: l) =
      List.filterMap lookupOf l := by
  simp [List.filterMap_cons, lookupOf]

theorem filterMap_lookup_batch (cfg : RateLimitConfig) :
    ∀ b : List String, (specBatchTrace cfg b).filterMap lookupOf = b
  | [] => rfl
  | [a] => by
    unfold specBatchTrace
    simp only [List.map_cons, List.map_nil, List.intersperse_singleton]
    rw [filterMap_lookupOf_lookup]
    rfl
  | a :: b2 :: t => by
    have ih := filterMap_lookup_batch cfg (b2 :: t)
    unfold specBatchTrace at ih ⊢
    simp only [List.map_cons, List.intersperse_cons₂] at ih ⊢
    rw [filterMap_lookupOf_lookup, filterMap_lookupOf_waitRequest, ih]

theorem filterMap_lookup_batches (cfg : RateLimitConfig) :
    ∀ bl : List (List String),
    ((((bl.map (specBatchTrace cfg)).intersperse
      [SchedEvent.waitBatch cfg.delayBetweenBatches]).flatten).filterMap
        lookupOf) = bl.flatten
  | [] => rfl
  | [b] => by
    simp only [List.map_cons, List.map_nil, List.intersperse_singleton,
      List.flatten_cons, List.flatten_nil, List.append_nil]
    rw [filterMap_lookup_batch cfg b]
  | b :: b2 :: t => by
    have ih := filterMap_lookup_batches cfg (b2 :: t)
    simp only [List.map_cons, List.intersperse_cons₂, List.flatten_cons]
      at ih ⊢
    rw [List.filterMap_append, List.filterMap_append,
      show List.filterMap lookupOf
        [SchedEvent.waitBatch cfg.delayBetweenBatches] = [] from rfl,
      List.nil_append, filterMap_lookup_batch cfg b, ih]

theorem chunksOfAux_flatten (bs : Nat) (hbs : 0 < bs) :
    ∀ fuel (l : List String), l.length ≤ fuel →
    (chunksOfAux bs fuel l).flatten = l := by
  intro fuel
  induction fuel with
  | zero =>
    intro l hl
    have hnil : l = [] := List.eq_nil_of_length_eq_zero (by omega)
    subst hnil
    rfl
  | succ fuel ih =>
    intro l hl
    cases l with
    | nil => rfl
    | cons a t =>
      show ((a :: t).take bs :: chunksOfAux bs fuel ((a :: t).drop bs)).flatten
        = a :: t
      rw [List.flatten_cons,
        ih ((a :: t).drop bs) (by rw [List.length_drop]; simp at hl ⊢; omega),
        List.take_append_drop]

theorem chunksOf_flatten (bs : Nat) (hbs : 0 < bs) (l : List String) :
    (chunksOf bs l).flatten = l :=
  chunksOfAux_flatten bs hbs l.length l (Nat.le_refl _)

/-! ### Claim C6 -/

/-- C6 counterexample: a limit of 0 is falsy in the source, so the run
processes every group instead of the first 0 groups. -/
theorem c6_limit_zero_processes_all :
    applyLimit (some 0) ["a@x.com"] = ["a@x.com"] ∧
    (schedulerTrace RATE_LIMIT (applyLimit (some 0) ["a@x.com"])).filterMap
      lookupOf = ["a@x.com"] ∧
    List.take 0 ["a@x.com"] = ([] : List String) :=
  ⟨by decide, by decide, by decide⟩

/-- C6 (amended): the scheduler partitions the selected group list into
consecutive batches of batchSize; within a batch the lookups run in order
with a delayBetweenRequests sleep between consecutive calls and none after
the last call of a batch; a delayBetweenBatches sleep separates consecutive
batches with none after the last; the lookups performed are exactly the
selected groups in order; and a nonzero limit selects exactly the first
limit groups (a limit of 0 is treated as no limit). -/
theorem c6_scheduler_batches (accounts : List String) (limit : Option Nat) :
    schedulerTrace RATE_LIMIT (applyLimit limit accounts) =
      specSchedulerTrace RATE_LIMIT (applyLimit limit accounts) ∧
    (schedulerTrace RATE_LIMIT (applyLimit limit accounts)).filterMap
      lookupOf = applyLimit limit accounts ∧
    (∀ l, limit = some l → l ≠ 0 →
      applyLimit limit accounts = accounts.take l) := by
  refine ⟨schedulerTrace_eq_spec _, ?_, ?_⟩
  · rw [schedulerTrace_eq_spec]
    unfold specSchedulerTrace
    rw [filterMap_lookup_batches RATE_LIMIT]
    exact chunksOf_flatten RATE_LIMIT.batchSize (by decide) _
  · intro l hl hne
    subst hl
    show (if (l == 0) = true then accounts else accounts.take l) =
      accounts.take l
    rw [if_neg (by simp [hne])]

/-- Witness for C6: with two groups and a limit of 1 the run follows the
batch shape and processes exactly the first group. -/
theorem c6_scheduler_batches_witness :
    schedulerTrace RATE_LIMIT (applyLimit (some 1) ["a@x.com", "b@y.com"]) =
      specSchedulerTrace RATE_LIMIT
        (applyLimit (some 1) ["a@x.com", "b@y.com"]) ∧
    applyLimit (some 1) ["a@x.com", "b@y.com"] =
      List.take 1 ["a@x.com", "b@y.com"] :=
  ⟨(c6_scheduler_batches ["a@x.com", "b@y.com"] (some 1)).1,
   (c6_scheduler_batches ["a@x.com", "b@y.com"] (some 1)).2.2 1 rfl
     (by decide)⟩


/-! ### Helper lemmas for the Risk Scoring Engine -/

theorem breachStep_fst (entry : Row)
    (_hcount : countFieldOk entry = true) :
    (breachStep entry DEFAULT_RISK_WEIGHTS).1 =
      if entryBreachedFlag entry = true then
        min (entryBreachCount entry * 10) 50
      else 0 := by
  unfold breachStep entryBreachedFlag entryBreachCount
  cases hbi : entry.breach_info with
  | none => simp
  | some s =>
    dsimp only
    by_cases hs : (s == "") = true
    · simp [hs]
    · simp only [if_neg hs]
      cases hp : jsonParse s with
      | none => simp
      | some j =>
        dsimp only
        by_cases hbt : jsTruthy (j.getField "breached") = true
        · by_cases hct : jsTruthy (j.getField "count") = true
          · simp [hbt, hct, DEFAULT_RISK_WEIGHTS]
          · have hzero : jsonCountVal j = 0 := by
              unfold jsonCountVal
              cases hf : j.getField "count" with
              | none => rfl
              | some v =>
                cases v with
                | num n =>
                  rw [hf] at hct
                  simp [jsTruthy] at hct
                  simp [hct]
                | null => rfl
                | bool b => rfl
                | str s2 => rfl
                | arr items => rfl
                | obj fields => rfl
            simp [hbt, hct, hzero]
        · simp [hbt]

/-! ### Claim C4 -/

/-- C4: with default weights the score is min(100, c + b + k + a + w + d)
with c = 50 for a compromised record, b = min(breachCount x 10, 50) for a
breached record (cap applied after the multiply), k = 30 for a critical
category match, a = 15 for an old or unknown last check, w =
round(passwordWeakness / 100 x 20), d = 15 when another record shares the
nonempty secret.  The hypothesis states that the stored count property is
numeric or absent, which holds for every blob this program writes and marks
where the embedding models the JavaScript arithmetic faithfully. -/
theorem c4_risk_score_formula (cutoff : Nat) (entry : Row)
    (allEntries : List Row) (hcount : countFieldOk entry = true) :
    (calculateRiskScore cutoff entry allEntries DEFAULT_RISK_WEIGHTS).score =
      riskFormula cutoff entry allEntries := by
  have hb := breachStep_fst entry hcount
  unfold calculateRiskScore riskFormula
  simp only [apply_ite (@Prod.fst Int (List String))]
  rw [hb]
  have hdup : (0 < allEntries.countP (fun other =>
      other.id != entry.id && other.password == entry.password &&
      entry.password != "")) ↔ hasDuplicateSecret entry allEntries = true := by
    rw [List.countP_pos_iff]
    unfold hasDuplicateSecret
    rw [List.any_eq_true]
  have hw : (if calculatePasswordStrength entry.password > 0 then
        ((jsRoundHalfUp (calculatePasswordStrength entry.password *
          DEFAULT_RISK_WEIGHTS.weakPassword) 100 : Nat) : Int)
      else 0) =
      ((jsRoundHalfUp (calculatePasswordStrength entry.password * 20) 100 :
        Nat) : Int) := by
    by_cases hpw : calculatePasswordStrength entry.password > 0
    · rw [if_pos hpw]
      rfl
    · rw [if_neg hpw]
      have h0 : calculatePasswordStrength entry.password = 0 := by omega
      rw [h0]
      rfl
  rw [hw]
  have hd : (if 0 < allEntries.countP (fun other =>
        other.id != entry.id && other.password == entry.password &&
        entry.password != "") then
        ((DEFAULT_RISK_WEIGHTS.duplicatePassword : Nat) : Int) else 0) =
      (if hasDuplicateSecret entry allEntries = true then (15 : Int)
       else 0) := by
    by_cases hdc : hasDuplicateSecret entry allEntries = true
    · rw [if_pos (hdup.mpr hdc), if_pos hdc]
      rfl
    · rw [if_neg (fun hcp => hdc (hdup.mp hcp)), if_neg hdc]
  rw [hd]
  rfl

/-- Witness for C4: a concrete breached entry whose blob was written by the
applier (two breaches), sharing its password with another record. -/
theorem c4_risk_score_formula_witness :
    countFieldOk { wRowA with breach_info := some (breachedBlob "T" [breach2020, breach2023]) } = true ∧
    (calculateRiskScore 99999999 { wRowA with breach_info := some (breachedBlob "T" [breach2020, breach2023]) } [wRowA, wRowB] DEFAULT_RISK_WEIGHTS).score =
      riskFormula 99999999 { wRowA with breach_info := some (breachedBlob "T" [breach2020, breach2023]) } [wRowA, wRowB] :=
  ⟨by decide,
   c4_risk_score_formula 99999999
     { wRowA with breach_info := some (breachedBlob "T" [breach2020, breach2023]) }
     [wRowA, wRowB] (by decide)⟩

/-! ### Claim C10 -/

/-- C10: a stored blob that is not valid JSON, or that parses without a
truthy breached flag together with a truthy count, contributes nothing: the
scoring engine returns exactly what it returns for the same record with no
blob at all, factors included, so scoring is total over arbitrary persisted
contents. -/
theorem c10_malformed_blob_ignored (cutoff : Nat) (entry : Row)
    (allEntries : List Row) (s : String) (hs : entry.breach_info = some s)
    (hbad : badBlob s = true) :
    calculateRiskScore cutoff entry allEntries DEFAULT_RISK_WEIGHTS =
      calculateRiskScore cutoff { entry with breach_info := none }
        allEntries DEFAULT_RISK_WEIGHTS := by
  have hb : breachStep entry DEFAULT_RISK_WEIGHTS = (0, []) := by
    unfold breachStep
    rw [hs]
    unfold badBlob at hbad
    dsimp only
    by_cases hempty : (s == "") = true
    · simp [hempty]
    · simp only [if_neg hempty]
      cases hp : jsonParse s with
      | none => simp
      | some j =>
        rw [hp] at hbad
        dsimp only at hbad ⊢
        simp only [Bool.not_eq_true'] at hbad
        simp [hbad]
  have hb2 : breachStep { entry with breach_info := none }
      DEFAULT_RISK_WEIGHTS = (0, []) := rfl
  unfold calculateRiskScore
  rw [hb, hb2]

/-- Witness for C10 at a pair of concrete malformed blobs is subsumed by one
instance: a blob that is not JSON is ignored. -/
theorem c10_malformed_blob_ignored_witness :
    calculateRiskScore 99999999
        { wRowA with breach_info := some "not json" } [wRowA]
        DEFAULT_RISK_WEIGHTS =
      calculateRiskScore 99999999
        { { wRowA with breach_info := some "not json" } with
          breach_info := none } [wRowA] DEFAULT_RISK_WEIGHTS :=
  c10_malformed_blob_ignored 99999999
    { wRowA with breach_info := some "not json" } [wRowA] "not json" rfl
    (by decide)


/-! ### Helper lemmas for the resume pass (claim C3) -/

theorem strAppend_ne_left (s t : String) (h : s ≠ "") : s ++ t ≠ "" := by
  intro he
  apply h
  have hd := congrArg String.data he
  rw [String.data_append] at hd
  have hs : s.data = [] := (List.append_eq_nil.mp hd).1
  cases s
  simpa using congrArg String.mk hs

theorem safeBlob_ne_empty (now : String) : safeBlob now ≠ "" := by
  unfold safeBlob
  exact strAppend_ne_left _ _ (strAppend_ne_left _ _ (by decide))

theorem breachedBlob_ne_empty (now : String) (bs : List BreachInfo) :
    breachedBlob now bs ≠ "" := by
  unfold breachedBlob
  exact strAppend_ne_left _ _ (strAppend_ne_left _ _ (strAppend_ne_left _ _
    (strAppend_ne_left _ _ (strAppend_ne_left _ _ (strAppend_ne_left _ _
      (by decide))))))

theorem beqString_comm (x y : String) : (x == y) = (y == x) := by
  by_cases h : x = y
  · subst h
    rfl
  · simp [h, Ne.symm h]

theorem any_congr_mem {l : List α} {p q : α → Bool}
    (h : ∀ a ∈ l, p a = q a) : l.any p = l.any q := by
  induction l with
  | nil => rfl
  | cons a t ih =>
    rw [List.any_cons, List.any_cons, h a (by simp),
      ih (fun x hx => h x (by simp [hx]))]

theorem processAccount_fst (now u : String) (db : List Row)
    (res : Option (List BreachInfo)) :
    (processAccount now db u res).1 = db.map (rowApply now u res) := by
  cases res with
  | none => exact (List.map_id db).symm
  | some bs =>
    cases bs with
    | nil => rfl
    | cons b rest => rfl

theorem runCheckDb_map (now : String) (f : String → Option (List BreachInfo)) :
    ∀ (as : List String) (db : List Row),
    runCheckDb now db as f = db.map (rowRun now f as) := by
  intro as
  induction as with
  | nil =>
    intro db
    exact (List.map_id db).symm
  | cons a t ih =>
    intro db
    show runCheckDb now (processAccount now db a (f a)).1 t f = _
    rw [ih, processAccount_fst, List.map_map]
    rfl

theorem rowApply_username (now a : String) (res : Option (List BreachInfo))
    (r : Row) : (rowApply now a res r).username = r.username := by
  cases res with
  | none => rfl
  | some bs =>
    cases bs with
    | nil =>
      by_cases hm : matchesUser a r = true
      · simp [rowApply, hm]
      · simp [rowApply, hm]
    | cons b rest =>
      by_cases hm : matchesUser a r = true
      · simp [rowApply, hm]
      · simp [rowApply, hm]

theorem rowRun_username (now : String)
    (f : String → Option (List BreachInfo)) :
    ∀ (as : List String) (r : Row),
    (rowRun now f as r).username = r.username := by
  intro as
  induction as with
  | nil => intro r; rfl
  | cons a t ih =>
    intro r
    show (rowRun now f t (rowApply now a (f a) r)).username = r.username
    rw [ih, rowApply_username]

theorem matchesUser_rowApply (u now a : String)
    (res : Option (List BreachInfo)) (r : Row) :
    matchesUser u (rowApply now a res r) = matchesUser u r := by
  unfold matchesUser
  rw [rowApply_username]

theorem matchesUser_rowRun (u now : String)
    (f : String → Option (List BreachInfo)) (as : List String) (r : Row) :
    matchesUser u (rowRun now f as r) = matchesUser u r := by
  unfold matchesUser
  rw [rowRun_username]

theorem hasBlob_rowApply (now a : String) (res : Option (List BreachInfo))
    (r : Row) :
    hasBlob (rowApply now a res r) =
      (hasBlob r || (res.isSome && matchesUser a r)) := by
  cases res with
  | none => simp [rowApply]
  | some bs =>
    by_cases hm : matchesUser a r = true
    · cases bs with
      | nil =>
        have hne := safeBlob_ne_empty now
        simp [rowApply, hm, hasBlob, hne]
      | cons b rest =>
        have hne := breachedBlob_ne_empty now (b :: rest)
        simp [rowApply, hm, hasBlob, hne]
    · cases bs with
      | nil => simp [rowApply, hm]
      | cons b rest => simp [rowApply, hm]

theorem hasBlob_rowRun (now : String)
    (f : String → Option (List BreachInfo)) :
    ∀ (as : List String) (r : Row),
    hasBlob (rowRun now f as r) =
      (hasBlob r || as.any (fun a => (f a).isSome && matchesUser a r)) := by
  intro as
  induction as with
  | nil => intro r; simp [rowRun]
  | cons a t ih =>
    intro r
    show hasBlob (rowRun now f t (rowApply now a (f a) r)) = _
    rw [ih]
    rw [hasBlob_rowApply]
    have hcg : t.any (fun a2 => (f a2).isSome &&
        matchesUser a2 (rowApply now a (f a) r)) =
        t.any (fun a2 => (f a2).isSome && matchesUser a2 r) := by
      apply any_congr_mem
      intro a2 _
      rw [matchesUser_rowApply]
    rw [hcg, List.any_cons]
    rw [Bool.or_assoc]

theorem dedup_filter [DecidableEq α] (p : α → Bool) :
    ∀ l : List α, (l.filter p).dedup = l.dedup.filter p := by
  intro l
  induction l with
  | nil => rfl
  | cons a t ih =>
    by_cases hp : p a = true
    · rw [List.filter_cons_of_pos hp]
      by_cases hm : a ∈ t
      · rw [List.dedup_cons_of_mem hm,
          List.dedup_cons_of_mem (List.mem_filter.mpr ⟨hm, hp⟩), ih]
      · have hm2 : a ∉ t.filter p := fun hc => hm (List.mem_filter.mp hc).1
        rw [List.dedup_cons_of_not_mem hm2, List.dedup_cons_of_not_mem hm,
          List.filter_cons_of_pos hp, ih]
    · rw [List.filter_cons_of_neg hp]
      by_cases hm : a ∈ t
      · rw [List.dedup_cons_of_mem hm, ih]
      · rw [List.dedup_cons_of_not_mem hm, List.filter_cons_of_neg hp, ih]

theorem sortByB_filter_strLe (p : String → Bool) (l : List String) :
    sortByB strLe (l.filter p) = (sortByB strLe l).filter p := by
  haveI inst : IsAntisymm String (fun a b => strLe a b = true) :=
    ⟨fun a b => strLe_antisymm a b⟩
  exact @List.eq_of_perm_of_sorted String (fun a b => strLe a b = true) inst
    _ _
    ((sortByB_perm strLe _).trans (((sortByB_perm strLe l).filter p).symm))
    (sortByB_pairwise strLe strLe_trans strLe_total _)
    ((sortByB_pairwise strLe strLe_trans strLe_total l).filter p)


/-! ### Claim C3 -/

/-- C3: starting from a record set with no breach state, run the Scheduler
over any list of (lower cased) identities with outcome function f, then
select again with resume on: the resume selection is exactly the full sorted
group list with the identities that received a terminal (non null) result
removed - an identity with a terminal result is never looked up again, an
identity that errored (no state written) is included again. -/
theorem c3_resume_complement (now : String) (db : List Row)
    (as : List String) (f : String → Option (List BreachInfo))
    (hclean : ∀ r ∈ db, r.breach_info = none)
    (hlow : ∀ a ∈ as, asciiLower a = a) :
    groupNames (runCheckDb now db as f) true =
      (groupNames db false).filter (fun u => !(coveredB as f u)) := by
  rw [runCheckDb_map]
  have hcov : ∀ r ∈ db, hasBlob (rowRun now f as r) =
      coveredB as f (asciiLower r.username) := by
    intro r hr
    rw [hasBlob_rowRun]
    have h0 : hasBlob r = false := by
      unfold hasBlob
      rw [hclean r hr]
    rw [h0, Bool.false_or]
    unfold coveredB
    apply any_congr_mem
    intro a ha
    unfold matchesUser
    rw [hlow a ha, beqString_comm]
  have hstate : ∀ r ∈ db,
      identityHasState (db.map (rowRun now f as)) (rowRun now f as r) =
        coveredB as f (asciiLower r.username) := by
    intro r hr
    unfold identityHasState
    rw [List.any_map]
    have hpt : ∀ p0 ∈ db,
        ((fun p2 => (asciiLower p2.username ==
            asciiLower (rowRun now f as r).username) && hasBlob p2) ∘
          (rowRun now f as)) p0 =
        ((asciiLower p0.username == asciiLower r.username) &&
          coveredB as f (asciiLower p0.username)) := by
      intro p0 hp0
      show ((asciiLower (rowRun now f as p0).username ==
          asciiLower (rowRun now f as r).username) &&
        hasBlob (rowRun now f as p0)) = _
      rw [rowRun_username, rowRun_username, hcov p0 hp0]
    rw [any_congr_mem hpt]
    rw [Bool.eq_iff_iff]
    constructor
    · intro h
      rcases List.any_eq_true.mp h with ⟨p0, hp0, hcond⟩
      rcases (Bool.and_eq_true _ _).mp hcond with ⟨heq, hcovp⟩
      rwa [beq_iff_eq.mp heq] at hcovp
    · intro h
      apply List.any_eq_true.mpr
      refine ⟨r, hr, (Bool.and_eq_true _ _).mpr ⟨beq_self_eq_true _, h⟩⟩
  have helig : eligibleRows (db.map (rowRun now f as)) true =
      (db.filter (fun r => strHasChar r.username '@' &&
        !(coveredB as f (asciiLower r.username)))).map (rowRun now f as) := by
    unfold eligibleRows
    rw [List.filter_map]
    congr 1
    apply List.filter_congr
    intro r hr
    show (strHasChar (rowRun now f as r).username '@' &&
      (!true || !(identityHasState (db.map (rowRun now f as))
        (rowRun now f as r)))) = _
    rw [rowRun_username, hstate r hr]
    simp
  have hElig0 : eligibleRows db false =
      db.filter (fun r => strHasChar r.username '@') := by
    unfold eligibleRows
    apply List.filter_congr
    intro r _
    simp
  unfold groupNames
  rw [helig, hElig0, List.map_map]
  rw [show (db.filter (fun r => strHasChar r.username '@' &&
      !(coveredB as f (asciiLower r.username)))).map
        ((fun r => asciiLower r.username) ∘ (rowRun now f as)) =
      (db.filter (fun r => strHasChar r.username '@' &&
        !(coveredB as f (asciiLower r.username)))).map
          (fun r => asciiLower r.username) from
    List.map_congr_left (fun r _ => by
      show asciiLower (rowRun now f as r).username = asciiLower r.username
      rw [rowRun_username])]
  rw [show db.filter (fun r => strHasChar r.username '@' &&
      !(coveredB as f (asciiLower r.username))) =
      (db.filter (fun r => strHasChar r.username '@')).filter
        (fun r => !(coveredB as f (asciiLower r.username))) from by
    rw [List.filter_filter]
    apply List.filter_congr
    intro r _
    rw [Bool.and_comm]]
  rw [show ((db.filter (fun r => strHasChar r.username '@')).filter
      (fun r => !(coveredB as f (asciiLower r.username)))).map
        (fun r => asciiLower r.username) =
      ((db.filter (fun r => strHasChar r.username '@')).map
        (fun r => asciiLower r.username)).filter
          (fun u => !(coveredB as f u)) from
    (@List.filter_map Row String (fun u => !(coveredB as f u))
      (fun r => asciiLower r.username)
      (db.filter (fun r => strHasChar r.username '@'))).symm]
  rw [dedup_filter, sortByB_filter_strLe]

/-- Witness for C3: a clean two identity database, a first run over the
first identity only (terminal safe result there, errors elsewhere), then the
resume selection is exactly the other identity. -/
theorem c3_resume_complement_witness :
    groupNames (runCheckDb "T" [wRowA, wRowC] ["a@x.com"]
        (fun u => if u == "a@x.com" then some [] else none)) true =
      (groupNames [wRowA, wRowC] false).filter
        (fun u => !(coveredB ["a@x.com"]
          (fun u => if u == "a@x.com" then some [] else none) u)) ∧
    groupNames (runCheckDb "T" [wRowA, wRowC] ["a@x.com"]
        (fun u => if u == "a@x.com" then some [] else none)) true =
      ["c@z.com"] :=
  ⟨c3_resume_complement "T" [wRowA, wRowC] ["a@x.com"]
      (fun u => if u == "a@x.com" then some [] else none)
      (by decide) (by decide),
    by decide⟩

end PwChecker
